import Mathlib

/-!
Verification development for the Level 5 MetaAgent / Leaderboard core
(files src/level5/meta_agent.rs and src/level5/leaderboard.rs).

Modelling conventions:
* Rust `String` values are modelled as UTF-8 byte lists (`Bytes := List Nat`);
  `String::len` and `as_bytes` are then list length and the identity.
* Rust `f64` arithmetic is modelled over `ℚ` extended with explicit
  not-a-number and infinity points (the type `F` below), with Rust's
  `f64::min` / `f64::max` NaN semantics.  Rounding of `f64` arithmetic is
  idealised to exact rational arithmetic.
* `f64::ln` has irrational values, so it is modelled by an arbitrary
  function parameter `flog : ℚ → ℚ` giving the (finite) value of `ln` at
  positive finite arguments; `ln` of zero is negative infinity and `ln` of
  a negative number is NaN, as for `f64::ln`.
* Calls to `Utc::now()` are modelled by threading an explicit timestamp
  argument (an integer, as `chrono`'s second-resolution `timestamp()`).
* `Sha256` is implemented in full (FIPS 180-4) over byte lists.
-/

namespace QLG

/-- Byte strings: a Rust `String`/`&[u8]` value as its list of bytes. -/
abbrev Bytes := List Nat

/-- Bytes of an ASCII string literal (for ASCII text this is its UTF-8). -/
def ascii (s : String) : Bytes := s.data.map Char.toNat

/-- Decimal rendering of a natural number, as bytes. -/
def natBytes (n : Nat) : Bytes := ascii (Nat.repr n)

/-- Decimal rendering of an integer, as bytes. -/
def intBytes (i : Int) : Bytes := ascii (Int.repr i)

/-! ## SHA-256 (as used through the `sha2` crate by `emit_provenance`) -/

/-- Truncation to a 32-bit word. -/
def w32 (n : Nat) : Nat := n % 4294967296

/-- Right rotation of a 32-bit word. -/
def rotr (n w : Nat) : Nat := w32 ((w >>> n) ||| (w <<< (32 - n)))

/-- SHA-256 small sigma 0. -/
def ssig0 (w : Nat) : Nat := (rotr 7 w) ^^^ (rotr 18 w) ^^^ (w >>> 3)

/-- SHA-256 small sigma 1. -/
def ssig1 (w : Nat) : Nat := (rotr 17 w) ^^^ (rotr 19 w) ^^^ (w >>> 10)

/-- SHA-256 big sigma 0. -/
def bsig0 (w : Nat) : Nat := (rotr 2 w) ^^^ (rotr 13 w) ^^^ (rotr 22 w)

/-- SHA-256 big sigma 1. -/
def bsig1 (w : Nat) : Nat := (rotr 6 w) ^^^ (rotr 11 w) ^^^ (rotr 25 w)

/-- SHA-256 choice function. -/
def chF (e f g : Nat) : Nat := (e &&& f) ^^^ ((e ^^^ 4294967295) &&& g)

/-- SHA-256 majority function. -/
def majF (a b c : Nat) : Nat := (a &&& b) ^^^ (a &&& c) ^^^ (b &&& c)

/-- The 64 SHA-256 round constants. -/
def sha256K : List Nat :=
  [1116352408, 1899447441, 3049323471, 3921009573, 961987163, 1508970993, 2453635748, 2870763221,
   3624381080, 310598401, 607225278, 1426881987, 1925078388, 2162078206, 2614888103, 3248222580,
   3835390401, 4022224774, 264347078, 604807628, 770255983, 1249150122, 1555081692, 1996064986,
   2554220882, 2821834349, 2952996808, 3210313671, 3336571891, 3584528711, 113926993, 338241895,
   666307205, 773529912, 1294757372, 1396182291, 1695183700, 1986661051, 2177026350, 2456956037,
   2730485921, 2820302411, 3259730800, 3345764771, 3516065817, 3600352804, 4094571909, 275423344,
   430227734, 506948616, 659060556, 883997877, 958139571, 1322822218, 1537002063, 1747873779,
   1955562222, 2024104815, 2227730452, 2361852424, 2428436474, 2756734187, 3204031479, 3329325298]

/-- SHA-256 working state: eight 32-bit words. -/
structure Hash8 where
  a : Nat
  b : Nat
  c : Nat
  d : Nat
  e : Nat
  f : Nat
  g : Nat
  h : Nat

/-- SHA-256 initial hash value. -/
def sha256H0 : Hash8 :=
  ⟨1779033703, 3144134277, 1013904242, 2773480762, 1359893119, 2600822924, 528734635, 1541459225⟩

/-- Big-endian conversion of groups of four bytes into 32-bit words. -/
def toWords : List Nat → List Nat
  | b0 :: b1 :: b2 :: b3 :: rest =>
      w32 (b0 * 16777216 + b1 * 65536 + b2 * 256 + b3) :: toWords rest
  | _ => []

/-- Extend the 16 message words of a chunk to the 64-entry message schedule. -/
def extendW (ws : List Nat) : List Nat :=
  (List.range 48).foldl
    (fun acc _ =>
      let n := acc.length
      acc ++ [w32 (acc.getD (n - 16) 0 + ssig0 (acc.getD (n - 15) 0) +
                   acc.getD (n - 7) 0 + ssig1 (acc.getD (n - 2) 0))])
    ws

/-- One SHA-256 compression round. -/
def sha256Round (st : Hash8) (k w : Nat) : Hash8 :=
  let t1 := w32 (st.h + bsig1 st.e + chF st.e st.f st.g + k + w)
  let t2 := w32 (bsig0 st.a + majF st.a st.b st.c)
  ⟨w32 (t1 + t2), st.a, st.b, st.c, w32 (st.d + t1), st.e, st.f, st.g⟩

/-- Process one 64-byte chunk. -/
def processChunk (st : Hash8) (chunk : List Nat) : Hash8 :=
  let ws := extendW (toWords chunk)
  let st' := (sha256K.zip ws).foldl (fun s kw => sha256Round s kw.1 kw.2) st
  ⟨w32 (st.a + st'.a), w32 (st.b + st'.b), w32 (st.c + st'.c), w32 (st.d + st'.d),
   w32 (st.e + st'.e), w32 (st.f + st'.f), w32 (st.g + st'.g), w32 (st.h + st'.h)⟩

/-- Big-endian 8-byte rendering of a 64-bit length field. -/
def be64 (n : Nat) : List Nat :=
  [(n >>> 56) % 256, (n >>> 48) % 256, (n >>> 40) % 256, (n >>> 32) % 256,
   (n >>> 24) % 256, (n >>> 16) % 256, (n >>> 8) % 256, n % 256]

/-- SHA-256 message padding. -/
def padMsg (msg : List Nat) : List Nat :=
  let len := msg.length
  msg ++ [128] ++ List.replicate ((119 - len % 64) % 64) 0 ++ be64 ((8 * len) % 18446744073709551616)

/-- Split a byte list into 64-byte chunks. -/
def chunks64 (l : List Nat) : List (List Nat) :=
  if l.isEmpty then [] else l.take 64 :: chunks64 (l.drop 64)
termination_by l.length
decreasing_by
  simp only [List.length_drop]
  cases l with
  | nil => simp_all
  | cons x xs => simp only [List.length_cons]; omega

/-- The final SHA-256 state of a message. -/
def sha256St (msg : List Nat) : Hash8 :=
  (chunks64 (padMsg msg)).foldl processChunk sha256H0

/-- Big-endian bytes of a 32-bit word. -/
def wordBytes (w : Nat) : List Nat :=
  [(w >>> 24) % 256, (w >>> 16) % 256, (w >>> 8) % 256, w % 256]

/-- SHA-256 digest of a byte list: 32 bytes. -/
def sha256Bytes (msg : List Nat) : List Nat :=
  let s := sha256St msg
  wordBytes s.a ++ wordBytes s.b ++ wordBytes s.c ++ wordBytes s.d ++
  wordBytes s.e ++ wordBytes s.f ++ wordBytes s.g ++ wordBytes s.h

/-- One lowercase hexadecimal digit (as an ASCII byte). -/
def hexDigit (n : Nat) : Nat := if n < 10 then 48 + n else 87 + n

/-- Two lowercase hexadecimal digits of a byte. -/
def byteHex (b : Nat) : List Nat := [hexDigit (b / 16), hexDigit (b % 16)]

/-- Lowercase hexadecimal rendering of a digest, as bytes
(the `format!("\x7b:x\x7d", hasher.finalize())` rendering). -/
def hexBytes : List Nat → List Nat
  | [] => []
  | b :: rest => byteHex b ++ hexBytes rest

/-- SHA-256 of a byte list, rendered as 64 lowercase hex characters. -/
def sha256Hex (msg : List Nat) : Bytes := hexBytes (sha256Bytes msg)

/-! ## The `f64` model

The type `F` is `ℚ` extended with NaN and the two infinities.  Arithmetic
on `fin` values is exact rational arithmetic (the idealisation of `f64`
rounding); NaN and infinity propagation follows IEEE 754 as implemented by
Rust `f64`, restricted to the operations the source uses.  Negative zero
does not occur in the source's computations (all divisions have
non-negative operands), so `ℚ`'s single zero is faithful. -/

inductive F where
  | fin : ℚ → F
  | nan : F
  | inf : F
  | neginf : F
deriving DecidableEq, Repr

namespace F

/-- `f64` addition. -/
def add : F → F → F
  | fin q, fin r => fin (q + r)
  | nan, _ => nan
  | _, nan => nan
  | inf, neginf => nan
  | neginf, inf => nan
  | inf, _ => inf
  | _, inf => inf
  | neginf, _ => neginf
  | _, neginf => neginf

/-- `f64` multiplication. -/
def mul : F → F → F
  | fin q, fin r => fin (q * r)
  | nan, _ => nan
  | _, nan => nan
  | inf, inf => inf
  | inf, neginf => neginf
  | neginf, inf => neginf
  | neginf, neginf => inf
  | inf, fin q => if q = 0 then nan else if 0 < q then inf else neginf
  | fin q, inf => if q = 0 then nan else if 0 < q then inf else neginf
  | neginf, fin q => if q = 0 then nan else if 0 < q then neginf else inf
  | fin q, neginf => if q = 0 then nan else if 0 < q then neginf else inf

/-- `f64` division (with `ℚ`'s positive zero: `x/0` is NaN at `x = 0`,
`+∞` for positive `x` and `-∞` for negative `x`, as for `f64` with `+0.0`). -/
def div : F → F → F
  | fin q, fin r =>
      if r = 0 then (if q = 0 then nan else if 0 < q then inf else neginf)
      else fin (q / r)
  | nan, _ => nan
  | _, nan => nan
  | inf, inf => nan
  | inf, neginf => nan
  | neginf, inf => nan
  | neginf, neginf => nan
  | inf, fin r => if 0 ≤ r then inf else neginf
  | neginf, fin r => if 0 ≤ r then neginf else inf
  | fin _, inf => fin 0
  | fin _, neginf => fin 0

/-- Total comparison on non-NaN values; NaN is (arbitrarily) placed below
everything.  On NaN-free arguments this agrees with
`f64::partial_cmp(..).unwrap()` (see `pcmp_eq_cmp`); the NaN rows only
serve to make the order total, Rust would panic there. -/
def cmp : F → F → Ordering
  | nan, nan => .eq
  | nan, _ => .lt
  | _, nan => .gt
  | neginf, neginf => .eq
  | neginf, _ => .lt
  | _, neginf => .gt
  | inf, inf => .eq
  | fin _, inf => .lt
  | inf, fin _ => .gt
  | fin q, fin r => compare q r

/-- `f64::partial_cmp`: `none` exactly when an operand is NaN. -/
def pcmp (x y : F) : Option Ordering :=
  if x = nan ∨ y = nan then none else some (cmp x y)

/-- `f64::min`: if one argument is NaN the other argument is returned. -/
def fmin : F → F → F
  | nan, y => y
  | x, nan => x
  | x, y => if cmp x y = .gt then y else x

/-- `f64::max`: if one argument is NaN the other argument is returned. -/
def fmax : F → F → F
  | nan, y => y
  | x, nan => x
  | x, y => if cmp x y = .lt then y else x

/-- `f64::ln`, with the finite values of `ln` on positive arguments given
by the parameter `flog`. -/
def lnF (flog : ℚ → ℚ) : F → F
  | fin q => if 0 < q then fin (flog q) else if q = 0 then neginf else nan
  | nan => nan
  | inf => inf
  | neginf => nan

/-- Whether a value is finite (not NaN, not an infinity). -/
def IsFin : F → Prop
  | fin _ => True
  | _ => False

instance : DecidablePred IsFin := by
  intro x; cases x <;> simp only [IsFin] <;> infer_instance

/-- The rational value of a finite `F`; junk (0) on non-finite values. -/
def toQ : F → ℚ
  | fin q => q
  | _ => 0

/-- Boolean comparator underlying the Rust `sort_by` calls: `le x y` holds
when the comparison of `x` and `y` is not `Greater`. -/
def ble (x y : F) : Bool := cmp x y ≠ .gt

end F

/-! ## meta_agent.rs: data model -/

/-- The closed set of agent kinds (`enum AgentType`). -/
inductive AgentType where
  | Classification
  | Reasoning
  | Action
  | Retrieval
  | Meta
  | Synthesis
  | Validation
  | Translation
deriving DecidableEq, Fintype, Repr

/-- The `Display` (and derived `Debug`) name of an agent kind, as bytes. -/
def AgentType.display : AgentType → Bytes
  | .Classification => ascii "Classification"
  | .Reasoning => ascii "Reasoning"
  | .Action => ascii "Action"
  | .Retrieval => ascii "Retrieval"
  | .Meta => ascii "Meta"
  | .Synthesis => ascii "Synthesis"
  | .Validation => ascii "Validation"
  | .Translation => ascii "Translation"

/-- One recorded step (`struct AgentEvent`). -/
structure AgentEvent where
  timestamp : Int
  agent : AgentType
  input : Bytes
  output : Bytes
  language : Bytes
  confidence : ℚ
  metadata : List (Bytes × Bytes)
deriving DecidableEq

/-- A derived agent hand-off (`struct AgentTransition`). -/
structure AgentTransition where
  from_agent : AgentType
  to_agent : AgentType
  timestamp : Int
  reason : Bytes
  transition_score : ℚ
deriving DecidableEq

/-- `struct MemoryFold`.  The field `compressionRatioQ` models
`compression_ratio`. -/
structure MemoryFold where
  session_id : Bytes
  folded_trace : List AgentEvent
  summary : Bytes
  compressionRatioQ : ℚ
  key_insights : List Bytes
  language_distribution : List (Bytes × Nat)
deriving DecidableEq

/-- `struct ProvenanceLog`. -/
structure ProvenanceLog where
  trace_hash : Bytes
  agent_sequence : List AgentType
  contributor_id : Bytes
  backend_used : Bytes
  timestamp : Int
  trace_depth : Nat
  uniqueness_score : F
  transitions : List AgentTransition
deriving DecidableEq

/-- `struct ContributorProfile`. -/
structure ContributorProfile where
  contributor_id : Bytes
  preferred_languages : List Bytes
  expertise_domains : List Bytes
  reasoning_style : Bytes
  total_traces : Nat
  avg_trace_depth : ℚ
deriving DecidableEq

/-- `struct MetaAgent`: the session state. -/
structure MetaAgent where
  trace : List AgentEvent
  transitions : List AgentTransition
  contributor_id : Bytes
  backend_used : Bytes
  profile : ContributorProfile
  session_id : Bytes
  current_agent : Option AgentType
deriving DecidableEq

namespace MetaAgent

/-- `MetaAgent::new`.  The ambient `Utc::now().timestamp()` (seconds) is
the explicit argument `now`. -/
def new (contributor_id backend_used : Bytes) (now : Int) : MetaAgent :=
  let profile : ContributorProfile :=
    { contributor_id := contributor_id
      preferred_languages := [ascii "en"]
      expertise_domains := []
      reasoning_style := ascii "analytical"
      total_traces := 0
      avg_trace_depth := 0 }
  { trace := []
    transitions := []
    contributor_id := contributor_id
    backend_used := backend_used
    profile := profile
    session_id := ascii "session_" ++ intBytes now
    current_agent := none }

/-- `MetaAgent::with_profile`. -/
def with_profile (contributor_id backend_used : Bytes) (profile : ContributorProfile)
    (now : Int) : MetaAgent :=
  { trace := []
    transitions := []
    contributor_id := contributor_id
    backend_used := backend_used
    profile := profile
    session_id := ascii "session_" ++ intBytes now
    current_agent := none }

/-- `MetaAgent::compute_transition_score`: the sum of the confidences of
the last up-to-3 trace events divided by `min 3 (trace length)`, and `1.0`
on an empty trace. -/
def compute_transition_score (m : MetaAgent) : ℚ :=
  if m.trace = [] then 1
  else ((m.trace.reverse.take 3).map (fun e => e.confidence)).sum /
       min (3 : ℚ) (m.trace.length : ℚ)

/-- `MetaAgent::track_transition`. -/
def track_transition (m : MetaAgent) (fr tgt : AgentType) (reason : Bytes)
    (now : Int) : MetaAgent :=
  { m with transitions := m.transitions ++
      [{ from_agent := fr, to_agent := tgt, timestamp := now, reason := reason,
         transition_score := m.compute_transition_score }] }

/-- `MetaAgent::log_event_with_metadata`.  The two `Utc::now()` readings
(for the transition and the event) are modelled by the same `now`. -/
def log_event_with_metadata (m : MetaAgent) (agent : AgentType)
    (input output language : Bytes) (confidence : ℚ)
    (metadata : List (Bytes × Bytes)) (now : Int) : MetaAgent :=
  let m1 :=
    match m.current_agent with
    | some prev => if prev ≠ agent then m.track_transition prev agent (ascii "natural_flow") now else m
    | none => m
  { m1 with
    trace := m1.trace ++
      [{ timestamp := now, agent := agent, input := input, output := output,
         language := language, confidence := confidence, metadata := metadata }]
    current_agent := some agent }

/-- `MetaAgent::log_event` (same as the metadata variant with an empty
map; the source duplicates the body). -/
def log_event (m : MetaAgent) (agent : AgentType) (input output language : Bytes)
    (confidence : ℚ) (now : Int) : MetaAgent :=
  m.log_event_with_metadata agent input output language confidence [] now

/-- One step of a counting map: `*map.entry(k).or_insert(0) += 1`. -/
def upsertCount {κ : Type} [DecidableEq κ] (acc : List (κ × Nat)) (k : κ) : List (κ × Nat) :=
  if (acc.find? (fun kv => kv.1 = k)).isSome
  then acc.map (fun kv => if kv.1 = k then (kv.1, kv.2 + 1) else kv)
  else acc ++ [(k, 1)]

/-- `MetaAgent::compute_language_distribution`: per-language event counts.
Rust uses a `HashMap` with unspecified iteration order; the model keeps
first-occurrence order, which fixes one order for the derived `Debug`
rendering (every property proved below is independent of that choice). -/
def language_distribution_of (trace : List AgentEvent) : List (Bytes × Nat) :=
  trace.foldl (fun acc e => upsertCount acc e.language) []

/-- `MetaAgent::count_agent_types`: per-agent-kind event counts (same
`HashMap` modelling note as for the language distribution). -/
def count_agent_types_of (trace : List AgentEvent) : List (AgentType × Nat) :=
  trace.foldl (fun acc e => upsertCount acc e.agent) []

/-- Comma-space separated concatenation. -/
def joinComma : List Bytes → Bytes
  | [] => []
  | [x] => x
  | x :: rest => x ++ ascii ", " ++ joinComma rest

/-- The `Debug` rendering of the agent-count map (braces written as
escaped bytes). -/
def debugAgentCounts (l : List (AgentType × Nat)) : Bytes :=
  ascii "\x7b" ++ joinComma (l.map (fun kv => kv.1.display ++ ascii ": " ++ natBytes kv.2)) ++ ascii "\x7d"

/-- `MetaAgent::generate_summary`. -/
def generate_summary (m : MetaAgent) : Bytes :=
  ascii "Session " ++ m.session_id ++ ascii " with " ++ natBytes m.trace.length ++
  ascii " reasoning steps across " ++ natBytes (language_distribution_of m.trace).length ++
  ascii " languages. Agent distribution: " ++ debugAgentCounts (count_agent_types_of m.trace) ++
  ascii ". Transitions: " ++ natBytes m.transitions.length

/-- `MetaAgent::extract_key_insights`. -/
def extract_key_insights (m : MetaAgent) : List Bytes :=
  (if 0 < (m.trace.filter (fun e => 4/5 < e.confidence)).length
   then [natBytes (m.trace.filter (fun e => 4/5 < e.confidence)).length ++
         ascii " high-confidence reasoning steps"]
   else []) ++
  (if 1 < (language_distribution_of m.trace).length
   then [ascii "Multilingual reasoning across " ++
         natBytes (language_distribution_of m.trace).length ++ ascii " languages"]
   else []) ++
  (if 5 < m.transitions.length
   then [ascii "Complex reasoning with " ++ natBytes m.transitions.length ++
         ascii " agent transitions"]
   else [])

/-- Total input plus output byte length of a trace. -/
def totalChars (m : MetaAgent) : Nat :=
  (m.trace.map (fun e => e.input.length + e.output.length)).sum

/-- `MetaAgent::fold_memory`. -/
def fold_memory (m : MetaAgent) : MemoryFold :=
  let summary := m.generate_summary
  { session_id := m.session_id
    folded_trace := m.trace
    summary := summary
    compressionRatioQ := if 0 < m.totalChars then (summary.length : ℚ) / (m.totalChars : ℚ) else 1
    key_insights := m.extract_key_insights
    language_distribution := language_distribution_of m.trace }

/-- `MetaAgent::compute_uniqueness_score`, over the `f64` model `F`: on an
empty trace the transition-density division is `0.0/0.0` (NaN) or
`k/0.0` (infinity), and `f64::min` against `1.0` then yields `1.0`. -/
def compute_uniqueness_score (m : MetaAgent) : F :=
  let agent_diversity : F := .fin (((count_agent_types_of m.trace).length : ℚ) / 8)
  let language_diversity : F := .fin (((language_distribution_of m.trace).length : ℚ) / 5)
  let transition_complexity : F :=
    F.fmin (F.div (.fin (m.transitions.length : ℚ)) (.fin (m.trace.length : ℚ))) (.fin 1)
  F.div (F.add (F.add agent_diversity language_diversity) transition_complexity) (.fin 3)

/-- The bytes `emit_provenance` feeds to the digest for one event. -/
def eventBytes (e : AgentEvent) : Bytes :=
  e.input ++ e.output ++ e.language ++ e.agent.display

/-- The full byte stream `emit_provenance` hashes, in trace order. -/
def traceBytes (trace : List AgentEvent) : Bytes :=
  trace.foldl (fun acc e => acc ++ eventBytes e) []

/-- `MetaAgent::emit_provenance`. -/
def emit_provenance (m : MetaAgent) (now : Int) : ProvenanceLog :=
  { trace_hash := sha256Hex (traceBytes m.trace)
    agent_sequence := m.trace.map (fun e => e.agent)
    contributor_id := m.contributor_id
    backend_used := m.backend_used
    timestamp := now
    trace_depth := m.trace.length
    uniqueness_score := m.compute_uniqueness_score
    transitions := m.transitions }

end MetaAgent

/-! ## leaderboard.rs -/

/-- `struct ContributorStats`. -/
structure ContributorStats where
  contributor_id : Bytes
  trace_depth : Nat
  provenance_hash : Bytes
  backend_used : Bytes
  last_updated : Int
  uniqueness_score : F
  total_submissions : Nat
  avg_trace_depth : F
  languages_used : List Bytes
  rank : Nat
deriving DecidableEq

/-- `enum RankingCriteria`. -/
inductive RankingCriteria where
  | TraceDepth
  | UniquenessScore
  | TotalSubmissions
  | AvgTraceDepth
  | Combined
deriving DecidableEq, Repr

/-- `struct Leaderboard`.  The `HashMap` history is modelled as an
association list (only lookups and per-key pushes are performed, so the
map's iteration order never matters). -/
structure Leaderboard where
  entries : List ContributorStats
  contributor_history : List (Bytes × List ProvenanceLog)
deriving DecidableEq

namespace Leaderboard

/-- `Leaderboard::new`. -/
def new : Leaderboard := { entries := [], contributor_history := [] }

/-- History lookup (empty list when the contributor is absent). -/
def histFind (h : List (Bytes × List ProvenanceLog)) (cid : Bytes) : List ProvenanceLog :=
  match h.find? (fun kv => kv.1 = cid) with
  | some kv => kv.2
  | none => []

/-- `contributor_history.entry(cid).or_insert_with(Vec::new).push(p)`. -/
def histPush : List (Bytes × List ProvenanceLog) → Bytes → ProvenanceLog →
    List (Bytes × List ProvenanceLog)
  | [], cid, p => [(cid, [p])]
  | (k, v) :: rest, cid, p =>
      if k = cid then (k, v ++ [p]) :: rest else (k, v) :: histPush rest cid p

/-- The update `add_entry` applies to an existing entry, given the
already-updated history list of the contributor. -/
def updateStats (p : ProvenanceLog) (hist : List ProvenanceLog) (langs : List Bytes)
    (e : ContributorStats) : ContributorStats :=
  { e with
    total_submissions := e.total_submissions + 1
    trace_depth := max e.trace_depth p.trace_depth
    provenance_hash := p.trace_hash
    backend_used := p.backend_used
    last_updated := p.timestamp
    uniqueness_score := F.fmax e.uniqueness_score p.uniqueness_score
    avg_trace_depth := F.div (.fin ((hist.map (fun q => (q.trace_depth : ℚ))).sum))
                             (.fin (hist.length : ℚ))
    languages_used := langs.foldl
      (fun acc l => if l ∈ acc then acc else acc ++ [l]) e.languages_used }

/-- Apply an update to the first entry with the given contributor id
(`entries.iter_mut().find(..)`); `none` when no entry matches. -/
def updateFirst (f : ContributorStats → ContributorStats) (cid : Bytes) :
    List ContributorStats → Option (List ContributorStats)
  | [] => none
  | e :: es =>
      if e.contributor_id = cid then some (f e :: es)
      else (updateFirst f cid es).map (fun es' => e :: es')

/-- The fresh entry `add_entry` creates on a first submission. -/
def freshStats (p : ProvenanceLog) (langs : List Bytes) : ContributorStats :=
  { contributor_id := p.contributor_id
    trace_depth := p.trace_depth
    provenance_hash := p.trace_hash
    backend_used := p.backend_used
    last_updated := p.timestamp
    uniqueness_score := p.uniqueness_score
    total_submissions := 1
    avg_trace_depth := .fin (p.trace_depth : ℚ)
    languages_used := langs
    rank := 0 }

/-- `Leaderboard::add_entry` up to (but not including) the final
`update_ranks` call. -/
def addEntryCore (lb : Leaderboard) (p : ProvenanceLog) (langs : List Bytes) : Leaderboard :=
  let cid := p.contributor_id
  let hist := histPush lb.contributor_history cid p
  let entries :=
    match updateFirst (updateStats p (histFind hist cid) langs) cid lb.entries with
    | some es => es
    | none => lb.entries ++ [freshStats p langs]
  { entries := entries, contributor_history := hist }

/-- `Leaderboard::compute_combined_score`, over the `f64` model (`flog`
giving the finite values of `f64::ln`). -/
def compute_combined_score (flog : ℚ → ℚ) (stats : ContributorStats) : F :=
  let depth_score : F := F.div (.fin (stats.trace_depth : ℚ)) (.fin 100)
  let uniqueness_score : F := stats.uniqueness_score
  let submission_score : F := F.div (F.lnF flog (.fin (stats.total_submissions : ℚ))) (.fin 5)
  let avg_depth_score : F := stats.avg_trace_depth
  F.add (F.add (F.add (F.mul (.fin (3/10)) depth_score) (F.mul (.fin (2/5)) uniqueness_score))
               (F.mul (.fin (3/20)) submission_score))
        (F.mul (.fin (3/20)) (F.div avg_depth_score (.fin 50)))

/-- `Leaderboard::rank_by_depth`: stable sort by depth descending, ties by
uniqueness descending.  Rust's `sort_by` is a stable merge sort, so it is
modelled by `List.mergeSort` with the comparator result `≠ Greater`. -/
def rank_by_depth (lb : Leaderboard) : List ContributorStats :=
  lb.entries.mergeSort (fun a b =>
    ((compare b.trace_depth a.trace_depth).then
      (F.cmp b.uniqueness_score a.uniqueness_score)) ≠ .gt)

/-- `Leaderboard::rank_by_uniqueness`. -/
def rank_by_uniqueness (lb : Leaderboard) : List ContributorStats :=
  lb.entries.mergeSort (fun a b =>
    ((F.cmp b.uniqueness_score a.uniqueness_score).then
      (compare b.trace_depth a.trace_depth)) ≠ .gt)

/-- `Leaderboard::rank_by_submissions`. -/
def rank_by_submissions (lb : Leaderboard) : List ContributorStats :=
  lb.entries.mergeSort (fun a b => (compare b.total_submissions a.total_submissions) ≠ .gt)

/-- `Leaderboard::rank_by_avg_depth`. -/
def rank_by_avg_depth (lb : Leaderboard) : List ContributorStats :=
  lb.entries.mergeSort (fun a b => F.ble b.avg_trace_depth a.avg_trace_depth)

/-- `Leaderboard::rank_combined`. -/
def rank_combined (flog : ℚ → ℚ) (lb : Leaderboard) : List ContributorStats :=
  lb.entries.mergeSort (fun a b =>
    F.ble (compute_combined_score flog b) (compute_combined_score flog a))

/-- Set the rank of the first entry with the given contributor id
(`entries.iter_mut().find(..)` inside the `update_ranks` loop). -/
def setRankById (cid : Bytes) (r : Nat) : List ContributorStats → List ContributorStats
  | [] => []
  | e :: es =>
      if e.contributor_id = cid then { e with rank := r } :: es
      else e :: setRankById cid r es

/-- The `update_ranks` assignment loop: the entry found for the i-th
ranked element receives rank `i + 1`. -/
def assignRanks : Nat → List ContributorStats → List ContributorStats → List ContributorStats
  | _, entries, [] => entries
  | i, entries, r :: rs => assignRanks (i + 1) (setRankById r.contributor_id (i + 1) entries) rs

/-- `Leaderboard::update_ranks`.  The source iterates over the ranked
borrow while assigning ranks through `iter_mut`; the model takes the
ranked snapshot by value (rank values are not sort keys, so the snapshot
is unaffected by the assignments). -/
def update_ranks (flog : ℚ → ℚ) (lb : Leaderboard) (criteria : RankingCriteria) : Leaderboard :=
  let ranked :=
    match criteria with
    | .TraceDepth => lb.rank_by_depth
    | .UniquenessScore => lb.rank_by_uniqueness
    | .TotalSubmissions => lb.rank_by_submissions
    | .AvgTraceDepth => lb.rank_by_avg_depth
    | .Combined => rank_combined flog lb
  { lb with entries := assignRanks 0 lb.entries ranked }

/-- `Leaderboard::add_entry`. -/
def add_entry (flog : ℚ → ℚ) (lb : Leaderboard) (p : ProvenanceLog) (langs : List Bytes) :
    Leaderboard :=
  update_ranks flog (addEntryCore lb p langs) .Combined

/-- `Leaderboard::get_top_n`. -/
def get_top_n (flog : ℚ → ℚ) (lb : Leaderboard) (n : Nat) (criteria : RankingCriteria) :
    List ContributorStats :=
  (match criteria with
   | .TraceDepth => lb.rank_by_depth
   | .UniquenessScore => lb.rank_by_uniqueness
   | .TotalSubmissions => lb.rank_by_submissions
   | .AvgTraceDepth => lb.rank_by_avg_depth
   | .Combined => rank_combined flog lb).take n

end Leaderboard

/-! ## Derived definitions used in theorem statements -/

/-- The per-event data `emit_provenance` feeds to the digest (the claim's
"(input, output, language, agent-kind)" tuple). -/
def MetaAgent.eventKey (e : AgentEvent) : Bytes × Bytes × Bytes × AgentType :=
  (e.input, e.output, e.language, e.agent)

/-- The byte stream of one key tuple. -/
def MetaAgent.keyBytes (k : Bytes × Bytes × Bytes × AgentType) : Bytes :=
  k.1 ++ k.2.1 ++ k.2.2.1 ++ k.2.2.2.display

/-- One `log_event` or `log_event_with_metadata` call (argument record). -/
structure Call where
  agent : AgentType
  input : Bytes
  output : Bytes
  language : Bytes
  confidence : ℚ
  withMeta : Option (List (Bytes × Bytes))
  now : Int

/-- Perform one logging call on a session. -/
def applyCall (m : MetaAgent) (c : Call) : MetaAgent :=
  match c.withMeta with
  | none => m.log_event c.agent c.input c.output c.language c.confidence c.now
  | some md =>
      m.log_event_with_metadata c.agent c.input c.output c.language c.confidence md c.now

/-- Perform a sequence of logging calls on a session. -/
def runCalls (m : MetaAgent) (cs : List Call) : MetaAgent := cs.foldl applyCall m

/-- The number of adjacent pairs of a sequence whose entries differ. -/
def countSwitches : List AgentType → Nat
  | [] => 0
  | [_] => 0
  | a :: b :: rest => (if a = b then 0 else 1) + countSwitches (b :: rest)

/-- Forget the rank field of a leaderboard entry. -/
def stripRank (e : ContributorStats) : ContributorStats := { e with rank := 0 }

/-- Index of the first occurrence of a byte string in a list. -/
def idxOfB (cid : Bytes) : List Bytes → Nat
  | [] => 0
  | x :: xs => if x = cid then 0 else 1 + idxOfB cid xs

/-- Fold a list of (provenance, languages) submissions into a leaderboard. -/
def addAll (flog : ℚ → ℚ) (lb : Leaderboard) (subs : List (ProvenanceLog × List Bytes)) :
    Leaderboard :=
  subs.foldl (fun l s => l.add_entry flog s.1 s.2) lb

/-- Build a leaderboard from scratch out of sessions: each submission is a
session state, the language list passed to `add_entry`, and the timestamp
of its `emit_provenance` call. -/
def runBoard (flog : ℚ → ℚ) (subs : List (MetaAgent × List Bytes × Int)) : Leaderboard :=
  subs.foldl (fun lb s => lb.add_entry flog (s.1.emit_provenance s.2.2) s.2.1) Leaderboard.new

/-- The lowercase hexadecimal alphabet, as bytes. -/
def hexAlphabet : Bytes := ascii "0123456789abcdef"

/-- A concrete session whose 16 events use 16 distinct language tags and
two alternating agent kinds (used against claim C4). -/
def mLangs : MetaAgent :=
  (List.range 16).foldl
    (fun m i => m.log_event (if i % 2 = 0 then .Reasoning else .Action) [] [] [i] 1 0)
    (MetaAgent.new (ascii "u") (ascii "b") 0)

/-- A concrete session with one event whose input and output are empty
(used against claim C8). -/
def mEmptyIo : MetaAgent :=
  (MetaAgent.new (ascii "u") (ascii "b") 0).log_event .Reasoning [] [] (ascii "en") (9/10) 1

/-- Two concrete sessions by different contributors on different backends
logging the identical event at different times (used for claim C1's
witness). -/
def mProvA : MetaAgent :=
  (MetaAgent.new (ascii "user1") (ascii "backend1") 0).log_event .Reasoning
    (ascii "test") (ascii "result") (ascii "en") (9/10) 3

/-- Companion session to `mProvA` with different identifiers and times. -/
def mProvB : MetaAgent :=
  (MetaAgent.new (ascii "user2") (ascii "backend2") 7).log_event .Reasoning
    (ascii "test") (ascii "result") (ascii "en") (9/10) 12

/-! ## Evaluation lemmas for the `f64` model -/

@[simp] theorem F.add_fin (q r : ℚ) : F.add (.fin q) (.fin r) = .fin (q + r) := rfl

@[simp] theorem F.mul_fin (q r : ℚ) : F.mul (.fin q) (.fin r) = .fin (q * r) := rfl

@[simp] theorem F.cmp_fin (q r : ℚ) : F.cmp (.fin q) (.fin r) = compare q r := rfl

theorem F.div_fin (q r : ℚ) (h : r ≠ 0) : F.div (.fin q) (.fin r) = .fin (q / r) := by
  simp [F.div, h]

theorem F.fmin_fin (q r : ℚ) : F.fmin (.fin q) (.fin r) = .fin (min q r) := by
  rcases le_or_lt q r with h | h
  · have : compare q r ≠ Ordering.gt := by
      simp [compare_gt_iff_gt, not_lt, h]
    simp [F.fmin, this, min_eq_left h]
  · have : compare q r = Ordering.gt := compare_gt_iff_gt.mpr h
    simp [F.fmin, this, min_eq_right h.le]

theorem F.fmax_fin (q r : ℚ) : F.fmax (.fin q) (.fin r) = .fin (max q r) := by
  rcases le_or_lt r q with h | h
  · have : compare q r ≠ Ordering.lt := by
      simp [compare_lt_iff_lt, not_lt, h]
    simp [F.fmax, this, max_eq_left h]
  · have : compare q r = Ordering.lt := compare_lt_iff_lt.mpr h
    simp [F.fmax, this, max_eq_right h.le]

theorem F.pcmp_fin_isSome (q r : ℚ) : (F.pcmp (.fin q) (.fin r)).isSome := by
  simp [F.pcmp]

/-! ## The hexadecimal rendering of a SHA-256 digest -/

theorem wordBytes_length (w : Nat) : (wordBytes w).length = 4 := rfl

theorem wordBytes_lt (w : Nat) : ∀ b ∈ wordBytes w, b < 256 := by
  intro b hb
  simp only [wordBytes, List.mem_cons, List.not_mem_nil, or_false] at hb
  rcases hb with h | h | h | h <;> subst h <;> exact Nat.mod_lt _ (by norm_num)

theorem sha256Bytes_length (msg : List Nat) : (sha256Bytes msg).length = 32 := by
  simp [sha256Bytes, List.length_append, wordBytes_length]

theorem sha256Bytes_lt (msg : List Nat) : ∀ b ∈ sha256Bytes msg, b < 256 := by
  intro b hb
  simp only [sha256Bytes, List.mem_append] at hb
  rcases hb with ((((((h | h) | h) | h) | h) | h) | h) | h <;> exact wordBytes_lt _ _ h

theorem hexBytes_length (l : List Nat) : (hexBytes l).length = 2 * l.length := by
  induction l with
  | nil => rfl
  | cons b rest ih =>
      simp only [hexBytes, byteHex, List.length_append, List.length_cons, ih,
        List.length_nil]
      ring

theorem hexDigit_mem (n : Nat) (h : n < 16) : hexDigit n ∈ hexAlphabet := by
  revert h
  revert n
  decide

theorem byteHex_mem (b : Nat) (hb : b < 256) : ∀ c ∈ byteHex b, c ∈ hexAlphabet := by
  intro c hc
  simp only [byteHex, List.mem_cons, List.not_mem_nil, or_false] at hc
  rcases hc with h | h <;> subst h
  · exact hexDigit_mem _ (by omega)
  · exact hexDigit_mem _ (Nat.mod_lt _ (by norm_num))

theorem hexBytes_mem (l : List Nat) (hl : ∀ b ∈ l, b < 256) :
    ∀ c ∈ hexBytes l, c ∈ hexAlphabet := by
  induction l with
  | nil => intro c hc; simp [hexBytes] at hc
  | cons b rest ih =>
      intro c hc
      simp only [hexBytes, List.mem_append] at hc
      rcases hc with h | h
      · exact byteHex_mem b (hl b (by simp)) c h
      · exact ih (fun x hx => hl x (by simp [hx])) c h

theorem sha256Hex_length (msg : List Nat) : (sha256Hex msg).length = 64 := by
  simp [sha256Hex, hexBytes_length, sha256Bytes_length]

theorem sha256Hex_mem (msg : List Nat) : ∀ c ∈ sha256Hex msg, c ∈ hexAlphabet :=
  hexBytes_mem _ (sha256Bytes_lt msg)

/-! ## Claim C1: provenance-hash determinism and format -/

theorem traceBytes_acc (t : List AgentEvent) :
    ∀ acc : Bytes, t.foldl (fun acc e => acc ++ MetaAgent.eventBytes e) acc =
      acc ++ ((t.map MetaAgent.eventKey).map MetaAgent.keyBytes).flatten := by
  induction t with
  | nil => intro acc; simp
  | cons e rest ih =>
      intro acc
      simp only [List.foldl_cons, List.map_cons, List.flatten, ih, List.append_assoc]
      rfl

theorem traceBytes_eq_join (t : List AgentEvent) :
    MetaAgent.traceBytes t = ((t.map MetaAgent.eventKey).map MetaAgent.keyBytes).flatten := by
  simpa using traceBytes_acc t []

/-- C1: two sessions whose traces consist of identical ordered
(input, output, language, agent-kind) tuples receive identical trace
hashes from `emit_provenance` — regardless of contributor id, backend id,
or timestamps — and the hash is 64 lowercase hexadecimal characters.
The hash digests exactly the per-event input, output, language and
agent-display bytes, in trace order (`traceBytes`). -/
theorem provenance_hash_deterministic (m1 m2 : MetaAgent) (t1 t2 : Int)
    (h : m1.trace.map MetaAgent.eventKey = m2.trace.map MetaAgent.eventKey) :
    (m1.emit_provenance t1).trace_hash = (m2.emit_provenance t2).trace_hash ∧
    (m1.emit_provenance t1).trace_hash.length = 64 ∧
    ∀ c ∈ (m1.emit_provenance t1).trace_hash, c ∈ hexAlphabet := by
  have hb : MetaAgent.traceBytes m1.trace = MetaAgent.traceBytes m2.trace := by
    rw [traceBytes_eq_join, traceBytes_eq_join, h]
  exact ⟨by simp [MetaAgent.emit_provenance, hb], sha256Hex_length _, sha256Hex_mem _⟩

/-- Witness for C1: `mProvA` and `mProvB` differ in contributor, backend
and every timestamp but log the same event data, so their hashes agree. -/
theorem provenance_hash_deterministic_witness :
    (mProvA.emit_provenance 100).trace_hash = (mProvB.emit_provenance 200).trace_hash :=
  (provenance_hash_deterministic mProvA mProvB 100 200 (by decide)).1

/-! ## Claim C9: session identifiers and construction time -/

/-- Counterexample to C9: two distinct constructions (different
contributor and backend) during the same clock second receive the same
session identifier, so construction does not guarantee uniqueness. -/
theorem session_id_second_collision :
    (MetaAgent.new (ascii "alice") (ascii "backend1") 1700000000).session_id =
    (MetaAgent.new (ascii "bob") (ascii "backend2") 1700000000).session_id := rfl

/-- C9 amended: the session identifier is determined solely by the
second-resolution construction timestamp — it is the text `session_`
followed by the decimal timestamp, for both constructors — so it is
unique only across constructions on distinct clock seconds. -/
theorem session_id_determined_by_second (c b : Bytes) (p : ContributorProfile) (ts : Int) :
    (MetaAgent.new c b ts).session_id = ascii "session_" ++ intBytes ts ∧
    (MetaAgent.with_profile c b p ts).session_id = ascii "session_" ++ intBytes ts :=
  ⟨rfl, rfl⟩


/-! ## Claim C5: the empty-trace uniqueness score -/

theorem count_agent_types_nil : MetaAgent.count_agent_types_of [] = [] := rfl

theorem language_distribution_nil : MetaAgent.language_distribution_of [] = [] := rfl

/-- On an empty trace the transition-density division is `0.0/0.0` (NaN)
or `k/0.0` (`+inf`), and Rust's `f64::min(_, 1.0)` returns `1.0` in both
cases, so the score is `(0/8 + 0/5 + 1)/3 = 1/3`. -/
theorem uniq_score_empty (m : MetaAgent) (h : m.trace = []) :
    m.compute_uniqueness_score = F.fin (1/3) := by
  unfold MetaAgent.compute_uniqueness_score
  rw [h]
  have htc : F.fmin (F.div (.fin ((m.transitions.length : ℚ)))
      (.fin (([] : List AgentEvent).length : ℚ))) (.fin 1) = .fin 1 := by
    rcases hk : m.transitions.length with _ | k
    · simp [F.div, F.fmin]
    · have hpos : (0 : ℚ) < ((k + 1 : Nat) : ℚ) := by positivity
      simp only [List.length_nil, Nat.cast_zero, F.div, if_pos rfl, hpos.ne', if_false,
        if_pos hpos, F.fmin]
      rfl
  rw [count_agent_types_nil, language_distribution_nil, htc]
  norm_num [F.div, F.add]

/-- Counterexample to C5: on a freshly constructed session (empty trace)
the emitted uniqueness score is `1/3`, not `0`: the division by
`trace.len()` is not special-cased — it produces NaN, which
`f64::min(_, 1.0)` turns into `1.0`. -/
theorem empty_trace_uniqueness_not_zero :
    ((MetaAgent.new (ascii "a") (ascii "b") 0).emit_provenance 0).uniqueness_score =
      F.fin (1/3) ∧ F.fin (1/3) ≠ F.fin 0 := by
  constructor
  · simpa [MetaAgent.emit_provenance] using
      uniq_score_empty (MetaAgent.new (ascii "a") (ascii "b") 0) rfl
  · simp only [ne_eq, F.fin.injEq]
    norm_num

/-- C5 amended: `emit_provenance` on a session with an empty trace yields
uniqueness score `(0/8 + 0/5 + 1.0)/3 = 1/3`: the division by
`trace.len()` is not special-cased, it yields NaN (or an infinity when
transitions exist), and taking `f64::min` with `1.0` then yields a
transition-density component of `1.0`, not `0.0`. -/
theorem empty_trace_uniqueness_third (m : MetaAgent) (now : Int) (h : m.trace = []) :
    (m.emit_provenance now).uniqueness_score = F.fin (1/3) := by
  simpa [MetaAgent.emit_provenance] using uniq_score_empty m h

/-- Witness for C5 (amended): a fresh session. -/
theorem empty_trace_uniqueness_third_witness :
    ((MetaAgent.new (ascii "w") (ascii "b") 5).emit_provenance 6).uniqueness_score =
      F.fin (1/3) :=
  empty_trace_uniqueness_third (MetaAgent.new (ascii "w") (ascii "b") 5) 6 rfl

/-! ## Claim C8: the compression ratio -/

theorem generate_summary_len_pos (m : MetaAgent) : 0 < m.generate_summary.length := by
  have h8 : (ascii "Session ").length = 8 := rfl
  simp only [MetaAgent.generate_summary, List.length_append, h8]
  omega

/-- Counterexample to C8: a session with one event whose input and output
are both empty has a non-empty trace, a compression ratio of exactly `1`,
yet `summary.length / totalChars` is a division by zero (`+inf` in `f64`,
`0` in the rational convention), so the ratio does not equal the claimed
quotient on every non-empty trace. -/
theorem compression_ratio_formula_fails :
    mEmptyIo.trace ≠ [] ∧
    mEmptyIo.totalChars = 0 ∧
    (mEmptyIo.fold_memory).compressionRatioQ = 1 ∧
    (mEmptyIo.fold_memory).compressionRatioQ ≠
      (((mEmptyIo.fold_memory).summary.length : ℚ) / (mEmptyIo.totalChars : ℚ)) := by
  have htc : mEmptyIo.totalChars = 0 := by decide
  have hcr : (mEmptyIo.fold_memory).compressionRatioQ = 1 := by
    simp [MetaAgent.fold_memory, htc]
  refine ⟨by decide, htc, hcr, ?_⟩
  rw [hcr, htc]
  norm_num

/-- C8 amended: the compression ratio is `summary.length / totalChars`
whenever the total input-plus-output length is positive, and exactly `1`
whenever that total is `0` — which covers the empty trace (so the ratio is
exactly `1` there) but also any non-empty trace of empty strings — and it
is positive (hence a positive finite value) for every trace. -/
theorem compression_ratio_characterized (m : MetaAgent) :
    (m.trace = [] → m.totalChars = 0) ∧
    (m.totalChars = 0 → (m.fold_memory).compressionRatioQ = 1) ∧
    (0 < m.totalChars →
      (m.fold_memory).compressionRatioQ =
        (m.generate_summary.length : ℚ) / (m.totalChars : ℚ)) ∧
    0 < (m.fold_memory).compressionRatioQ := by
  refine ⟨?_, ?_, ?_, ?_⟩
  · intro h; simp [MetaAgent.totalChars, h]
  · intro h; simp [MetaAgent.fold_memory, h]
  · intro h; simp [MetaAgent.fold_memory, h]
  · by_cases h : 0 < m.totalChars
    · have hs := generate_summary_len_pos m
      simp only [MetaAgent.fold_memory, if_pos h]
      exact div_pos (by exact_mod_cast hs) (by exact_mod_cast h)
    · simp only [MetaAgent.fold_memory, if_neg h]
      norm_num

/-- Witness for C8 (amended): a session with ten input/output bytes. -/
theorem compression_ratio_characterized_witness :
    0 < mProvA.totalChars ∧
    (mProvA.fold_memory).compressionRatioQ =
      (mProvA.generate_summary.length : ℚ) / (mProvA.totalChars : ℚ) :=
  ⟨by decide, (compression_ratio_characterized mProvA).2.2.1 (by decide)⟩


/-! ## Claim C4: bounds on the uniqueness score -/

theorem upsertCount_keys_nodup {κ : Type} [DecidableEq κ] (acc : List (κ × Nat)) (k : κ)
    (h : (acc.map Prod.fst).Nodup) : ((MetaAgent.upsertCount acc k).map Prod.fst).Nodup := by
  unfold MetaAgent.upsertCount
  by_cases hf : (acc.find? (fun kv => kv.1 = k)).isSome
  · rw [if_pos hf, List.map_map]
    have : ((fun kv : κ × Nat => kv.1) ∘ fun kv : κ × Nat =>
        if kv.1 = k then (kv.1, kv.2 + 1) else kv) = fun kv : κ × Nat => kv.1 := by
      funext kv
      by_cases hkv : kv.1 = k <;> simp [hkv]
    rw [this]
    exact h
  · rw [if_neg hf, List.map_append]
    rw [List.nodup_append]
    refine ⟨h, by simp, ?_⟩
    intro x hx hx'
    simp only [List.map_cons, List.map_nil, List.mem_singleton] at hx'
    subst hx'
    rcases List.mem_map.mp hx with ⟨kv, hkv, hfst⟩
    rw [List.find?_isSome] at hf
    exact hf ⟨kv, hkv, by simp [hfst]⟩

theorem foldl_upsert_keys_nodup {κ : Type} [DecidableEq κ] (ks : List κ) :
    ∀ acc : List (κ × Nat), (acc.map Prod.fst).Nodup →
      ((ks.foldl MetaAgent.upsertCount acc).map Prod.fst).Nodup := by
  induction ks with
  | nil => intro acc h; simpa using h
  | cons k rest ih =>
      intro acc h
      simp only [List.foldl_cons]
      exact ih _ (upsertCount_keys_nodup acc k h)

theorem count_agent_types_length_le (t : List AgentEvent) :
    (MetaAgent.count_agent_types_of t).length ≤ 8 := by
  have hfold : MetaAgent.count_agent_types_of t =
      (t.map (fun e => e.agent)).foldl MetaAgent.upsertCount [] := by
    unfold MetaAgent.count_agent_types_of
    rw [List.foldl_map]
  have hnd : ((MetaAgent.count_agent_types_of t).map Prod.fst).Nodup := by
    rw [hfold]
    exact foldl_upsert_keys_nodup _ [] (by simp)
  have hcard : Fintype.card AgentType = 8 := rfl
  have := List.Nodup.length_le_card hnd
  rwa [List.length_map, hcard] at this

/-- Counterexample to C4: a session whose sixteen events carry sixteen
distinct language tags has uniqueness score
`(2/8 + 16/5 + min(15/16, 1))/3 = 117/80 > 1`, outside `[0, 1]`. -/
theorem uniqueness_score_exceeds_one :
    mLangs.compute_uniqueness_score = F.fin (117/80) ∧ ¬ (117/80 : ℚ) ≤ 1 := by
  have h1 : (MetaAgent.count_agent_types_of mLangs.trace).length = 2 := by decide
  have h2 : (MetaAgent.language_distribution_of mLangs.trace).length = 16 := by decide
  have h3 : mLangs.transitions.length = 15 := by decide
  have h4 : mLangs.trace.length = 16 := by decide
  constructor
  · unfold MetaAgent.compute_uniqueness_score
    rw [h1, h2, h3, h4]
    dsimp only
    rw [F.div_fin _ _ (by norm_num), F.fmin_fin, F.add_fin, F.add_fin,
      F.div_fin _ _ (by norm_num : (3:ℚ) ≠ 0)]
    have hmin : min (((15 : Nat) : ℚ) / ((16 : Nat) : ℚ)) 1 = 15/16 := by
      rw [min_eq_left (by norm_num)]
      norm_num
    rw [hmin]
    norm_num [F.fin.injEq]
  · norm_num

/-- C4 amended: the uniqueness score is a finite value in `[0, 1]` for
every session with at most 5 distinct language tags (this includes the
empty trace, whose score is `1/3`); with more than 5 distinct languages
the score can exceed `1` (see the counterexample). -/
theorem uniqueness_score_in_unit_interval (m : MetaAgent)
    (hlang : (MetaAgent.language_distribution_of m.trace).length ≤ 5) :
    ∃ q, m.compute_uniqueness_score = F.fin q ∧ 0 ≤ q ∧ q ≤ 1 := by
  rcases eq_or_ne m.trace [] with h | h
  · exact ⟨1/3, uniq_score_empty m h, by norm_num, by norm_num⟩
  · have hn : 0 < m.trace.length := List.length_pos.mpr h
    have hnq : ((m.trace.length : Nat) : ℚ) ≠ 0 := by
      exact_mod_cast hn.ne'
    unfold MetaAgent.compute_uniqueness_score
    dsimp only
    rw [F.div_fin _ _ hnq, F.fmin_fin, F.add_fin, F.add_fin,
      F.div_fin _ _ (by norm_num : (3:ℚ) ≠ 0)]
    refine ⟨_, rfl, ?_, ?_⟩
    · have h1 : (0:ℚ) ≤ ((MetaAgent.count_agent_types_of m.trace).length : ℚ) / 8 := by
        positivity
      have h2 : (0:ℚ) ≤ ((MetaAgent.language_distribution_of m.trace).length : ℚ) / 5 := by
        positivity
      have h3 : (0:ℚ) ≤ min (((m.transitions.length : Nat) : ℚ) / ((m.trace.length : Nat) : ℚ)) 1 :=
        le_min (by positivity) (by norm_num)
      positivity
    · have h1 : ((MetaAgent.count_agent_types_of m.trace).length : ℚ) / 8 ≤ 1 := by
        rw [div_le_one (by norm_num)]
        exact_mod_cast count_agent_types_length_le m.trace
      have h2 : ((MetaAgent.language_distribution_of m.trace).length : ℚ) / 5 ≤ 1 := by
        rw [div_le_one (by norm_num)]
        exact_mod_cast hlang
      have h3 : min (((m.transitions.length : Nat) : ℚ) / ((m.trace.length : Nat) : ℚ)) 1 ≤ 1 :=
        min_le_right _ _
      rw [div_le_one (by norm_num)]
      linarith

/-- Witness for C4 (amended): the single-language session `mProvA`. -/
theorem uniqueness_score_in_unit_interval_witness :
    ∃ q, mProvA.compute_uniqueness_score = F.fin q ∧ 0 ≤ q ∧ q ≤ 1 :=
  uniqueness_score_in_unit_interval mProvA (by decide)


/-! ## Claim C2: transition count equals adjacent differing pairs -/

theorem countSwitches_concat (l : List AgentType) (a : AgentType) :
    countSwitches (l ++ [a]) =
      countSwitches l + (match l.getLast? with
        | none => 0
        | some x => if x = a then 0 else 1) := by
  induction l with
  | nil => simp [countSwitches]
  | cons b rest ih =>
      cases rest with
      | nil => simp [countSwitches]
      | cons c rest' =>
          have hstep : countSwitches ((b :: c :: rest') ++ [a]) =
              (if b = c then 0 else 1) + countSwitches ((c :: rest') ++ [a]) := rfl
          have hrhs : countSwitches (b :: c :: rest') =
              (if b = c then 0 else 1) + countSwitches (c :: rest') := rfl
          rw [hstep, ih, hrhs, List.getLast?_cons_cons]
          omega

theorem log_event_meta_inv (m : MetaAgent) (a : AgentType) (i o lg : Bytes) (cf : ℚ)
    (md : List (Bytes × Bytes)) (now : Int)
    (h1 : m.current_agent = (m.trace.map (fun e => e.agent)).getLast?)
    (h2 : m.transitions.length = countSwitches (m.trace.map (fun e => e.agent))) :
    (m.log_event_with_metadata a i o lg cf md now).current_agent =
      (((m.log_event_with_metadata a i o lg cf md now).trace.map (fun e => e.agent)).getLast?) ∧
    (m.log_event_with_metadata a i o lg cf md now).transitions.length =
      countSwitches ((m.log_event_with_metadata a i o lg cf md now).trace.map (fun e => e.agent)) := by
  unfold MetaAgent.log_event_with_metadata
  rcases hc : m.current_agent with _ | prev
  · dsimp only
    refine ⟨by simp, ?_⟩
    simp only [List.map_append, List.map_cons, List.map_nil]
    rw [countSwitches_concat, ← h2]
    rw [hc] at h1
    simp [← h1]
  · dsimp only
    by_cases hpa : prev ≠ a
    · rw [if_pos hpa]
      refine ⟨by simp [MetaAgent.track_transition], ?_⟩
      simp only [MetaAgent.track_transition, List.map_append, List.map_cons, List.map_nil,
        List.length_append, List.length_cons, List.length_nil]
      rw [countSwitches_concat, ← h2]
      rw [hc] at h1
      rw [← h1]
      simp [hpa]
    · rw [if_neg hpa]
      push_neg at hpa
      refine ⟨by simp, ?_⟩
      simp only [List.map_append, List.map_cons, List.map_nil]
      rw [countSwitches_concat, ← h2]
      rw [hc] at h1
      rw [← h1]
      simp [hpa]

theorem applyCall_inv (m : MetaAgent) (c : Call)
    (h1 : m.current_agent = (m.trace.map (fun e => e.agent)).getLast?)
    (h2 : m.transitions.length = countSwitches (m.trace.map (fun e => e.agent))) :
    (applyCall m c).current_agent = ((applyCall m c).trace.map (fun e => e.agent)).getLast? ∧
    (applyCall m c).transitions.length =
      countSwitches ((applyCall m c).trace.map (fun e => e.agent)) := by
  unfold applyCall
  rcases c.withMeta with _ | md
  · exact log_event_meta_inv m c.agent c.input c.output c.language c.confidence [] c.now h1 h2
  · exact log_event_meta_inv m c.agent c.input c.output c.language c.confidence md c.now h1 h2

theorem runCalls_inv (cs : List Call) :
    ∀ m : MetaAgent,
      m.current_agent = (m.trace.map (fun e => e.agent)).getLast? →
      m.transitions.length = countSwitches (m.trace.map (fun e => e.agent)) →
      (runCalls m cs).current_agent = ((runCalls m cs).trace.map (fun e => e.agent)).getLast? ∧
      (runCalls m cs).transitions.length =
        countSwitches ((runCalls m cs).trace.map (fun e => e.agent)) := by
  induction cs with
  | nil => intro m h1 h2; exact ⟨h1, h2⟩
  | cons c rest ih =>
      intro m h1 h2
      have hstep := applyCall_inv m c h1 h2
      have : runCalls m (c :: rest) = runCalls (applyCall m c) rest := rfl
      rw [this]
      exact ih (applyCall m c) hstep.1 hstep.2

/-- C2: for a session freshly constructed by `new` or `with_profile` and
mutated only by a sequence of `log_event` / `log_event_with_metadata`
calls, the number of recorded transitions equals the number of adjacent
pairs of trace events whose agent kinds differ (so no transition is
recorded for the first event or for a repeated same-agent event). -/
theorem transitions_count_adjacent_pairs (cid bk : Bytes) (ts : Int)
    (p : ContributorProfile) (cs : List Call) :
    (runCalls (MetaAgent.new cid bk ts) cs).transitions.length =
      countSwitches ((runCalls (MetaAgent.new cid bk ts) cs).trace.map (fun e => e.agent)) ∧
    (runCalls (MetaAgent.with_profile cid bk p ts) cs).transitions.length =
      countSwitches
        ((runCalls (MetaAgent.with_profile cid bk p ts) cs).trace.map (fun e => e.agent)) :=
  ⟨(runCalls_inv cs (MetaAgent.new cid bk ts) rfl rfl).2,
   (runCalls_inv cs (MetaAgent.with_profile cid bk p ts) rfl rfl).2⟩

/-! ## Claim C7: the transition score -/

theorem compute_transition_score_eq (m : MetaAgent) :
    m.compute_transition_score = if m.trace = [] then 1
      else ((m.trace.reverse.take 3).map (fun e => e.confidence)).sum /
           ((((m.trace.reverse.take 3).length : Nat)) : ℚ) := by
  unfold MetaAgent.compute_transition_score
  rcases eq_or_ne m.trace [] with h | h
  · simp [h]
  · rw [if_neg h, if_neg h]
    congr 1
    rw [List.length_take, List.length_reverse, Nat.cast_min]
    norm_num

/-- C7: whenever a `log_event` call records a transition (the session has
an active agent differing from the new event's agent), the transition's
score is the average confidence of the last up-to-3 events already in the
trace — computed before the new event is appended — and `1.0` when the
trace is empty at that moment. -/
theorem transition_score_is_last3_avg (m : MetaAgent) (a : AgentType)
    (inp outp lang : Bytes) (conf : ℚ) (now : Int) (prev : AgentType)
    (hcur : m.current_agent = some prev) (hne : prev ≠ a) :
    (m.log_event a inp outp lang conf now).transitions =
      m.transitions ++
        [{ from_agent := prev, to_agent := a, timestamp := now,
           reason := ascii "natural_flow",
           transition_score := if m.trace = [] then 1
             else ((m.trace.reverse.take 3).map (fun e => e.confidence)).sum /
                  ((((m.trace.reverse.take 3).length : Nat)) : ℚ) }] := by
  unfold MetaAgent.log_event MetaAgent.log_event_with_metadata
  rw [hcur]
  dsimp only
  rw [if_pos hne]
  simp only [MetaAgent.track_transition]
  rw [compute_transition_score_eq]

/-- Witness for C7: logging a different agent on a one-event session. -/
theorem transition_score_is_last3_avg_witness :
    (mProvA.log_event .Action (ascii "i") (ascii "o") (ascii "en") (1/2) 99).transitions =
      mProvA.transitions ++
        [{ from_agent := .Reasoning, to_agent := .Action, timestamp := 99,
           reason := ascii "natural_flow",
           transition_score := if mProvA.trace = [] then 1
             else ((mProvA.trace.reverse.take 3).map (fun e => e.confidence)).sum /
                  ((((mProvA.trace.reverse.take 3).length : Nat)) : ℚ) }] :=
  transition_score_is_last3_avg mProvA .Action (ascii "i") (ascii "o") (ascii "en") (1/2) 99
    .Reasoning (by decide) (by decide)


/-! ## Leaderboard machinery: rank updates touch only the rank field -/

theorem stripRank_id (e : ContributorStats) : (stripRank e).contributor_id = e.contributor_id := rfl

theorem stripRank_eta (e : ContributorStats) (h : e.rank = 0) : stripRank e = e := by
  cases e
  simp_all [stripRank]

theorem setRankById_strip (cid : Bytes) (r : Nat) :
    ∀ l : List ContributorStats,
      (Leaderboard.setRankById cid r l).map stripRank = l.map stripRank := by
  intro l
  induction l with
  | nil => rfl
  | cons e es ih =>
      unfold Leaderboard.setRankById
      by_cases hc : e.contributor_id = cid
      · rw [if_pos hc]
        simp only [List.map_cons]
        congr 1
      · rw [if_neg hc]
        simp only [List.map_cons, ih]

theorem assignRanks_strip (rs : List ContributorStats) :
    ∀ (i : Nat) (l : List ContributorStats),
      (Leaderboard.assignRanks i l rs).map stripRank = l.map stripRank := by
  induction rs with
  | nil => intro i l; rfl
  | cons r rs' ih =>
      intro i l
      unfold Leaderboard.assignRanks
      rw [ih, setRankById_strip]

theorem update_ranks_strip (flog : ℚ → ℚ) (lb : Leaderboard) (crit : RankingCriteria) :
    (Leaderboard.update_ranks flog lb crit).entries.map stripRank = lb.entries.map stripRank ∧
    (Leaderboard.update_ranks flog lb crit).contributor_history = lb.contributor_history := by
  unfold Leaderboard.update_ranks
  exact ⟨assignRanks_strip _ 0 lb.entries, rfl⟩

/-! ## Leaderboard machinery: history and entry updates -/

theorem histFind_histPush_self (h : List (Bytes × List ProvenanceLog)) (cid : Bytes)
    (p : ProvenanceLog) :
    Leaderboard.histFind (Leaderboard.histPush h cid p) cid =
      Leaderboard.histFind h cid ++ [p] := by
  induction h with
  | nil => simp [Leaderboard.histPush, Leaderboard.histFind]
  | cons kv rest ih =>
      rcases kv with ⟨k, v⟩
      unfold Leaderboard.histPush
      by_cases hk : k = cid
      · rw [if_pos hk]
        simp [Leaderboard.histFind, List.find?_cons, hk]
      · rw [if_neg hk]
        unfold Leaderboard.histFind at ih ⊢
        simp only [List.find?_cons]
        have : (decide (k = cid)) = false := by simp [hk]
        rw [this]
        exact ih

theorem updateFirst_eq_none (f : ContributorStats → ContributorStats) (cid : Bytes) :
    ∀ l : List ContributorStats, (∀ e ∈ l, e.contributor_id ≠ cid) →
      Leaderboard.updateFirst f cid l = none := by
  intro l
  induction l with
  | nil => intro _; rfl
  | cons e es ih =>
      intro h
      unfold Leaderboard.updateFirst
      rw [if_neg (h e (by simp)), ih (fun x hx => h x (by simp [hx]))]
      rfl

theorem updateFirst_found (f : ContributorStats → ContributorStats) (cid : Bytes)
    (e : ContributorStats) (post : List ContributorStats) (he : e.contributor_id = cid) :
    ∀ pre : List ContributorStats, (∀ x ∈ pre, x.contributor_id ≠ cid) →
      Leaderboard.updateFirst f cid (pre ++ e :: post) = some (pre ++ f e :: post) := by
  intro pre
  induction pre with
  | nil =>
      intro _
      unfold Leaderboard.updateFirst
      simp [he]
  | cons x xs ih =>
      intro h
      have hx : x.contributor_id ≠ cid := h x (by simp)
      have : ((x :: xs) ++ e :: post) = x :: (xs ++ e :: post) := rfl
      rw [this]
      unfold Leaderboard.updateFirst
      rw [if_neg hx, ih (fun y hy => h y (by simp [hy]))]
      rfl

theorem stripRank_updateStats (p : ProvenanceLog) (hist : List ProvenanceLog)
    (langs : List Bytes) (e : ContributorStats) :
    stripRank (Leaderboard.updateStats p hist langs e) =
      Leaderboard.updateStats p hist langs (stripRank e) := by
  cases e
  rfl

theorem updateFirst_map_strip (p : ProvenanceLog) (hist : List ProvenanceLog)
    (langs : List Bytes) (cid : Bytes) :
    ∀ l : List ContributorStats,
      Option.map (List.map stripRank)
          (Leaderboard.updateFirst (Leaderboard.updateStats p hist langs) cid l) =
        Leaderboard.updateFirst (Leaderboard.updateStats p hist langs) cid
          (l.map stripRank) := by
  intro l
  induction l with
  | nil => rfl
  | cons e es ih =>
      simp only [List.map_cons]
      unfold Leaderboard.updateFirst
      by_cases hc : e.contributor_id = cid
      · rw [if_pos hc, if_pos (by simpa [stripRank_id] using hc)]
        simp [stripRank_updateStats]
      · rw [if_neg hc, if_neg (by simpa [stripRank_id] using hc)]
        rw [← ih]
        cases Leaderboard.updateFirst (Leaderboard.updateStats p hist langs) cid es <;> rfl

theorem stripRank_freshStats (p : ProvenanceLog) (langs : List Bytes) :
    stripRank (Leaderboard.freshStats p langs) = Leaderboard.freshStats p langs := rfl

/-- Everything `add_entry` does, up to the rank values: the stripped entry
list is the stripped input list with the matching entry updated (or a
fresh entry appended), and the history gains the new provenance record. -/
theorem add_entry_strip (flog : ℚ → ℚ) (lb : Leaderboard) (p : ProvenanceLog)
    (langs : List Bytes) :
    (Leaderboard.add_entry flog lb p langs).entries.map stripRank =
      (match Leaderboard.updateFirst
          (Leaderboard.updateStats p
            (Leaderboard.histFind (Leaderboard.histPush lb.contributor_history
              p.contributor_id p) p.contributor_id) langs)
          p.contributor_id (lb.entries.map stripRank) with
       | some es => es
       | none => lb.entries.map stripRank ++ [Leaderboard.freshStats p langs]) ∧
    (Leaderboard.add_entry flog lb p langs).contributor_history =
      Leaderboard.histPush lb.contributor_history p.contributor_id p := by
  unfold Leaderboard.add_entry
  constructor
  · rw [(update_ranks_strip flog _ .Combined).1]
    unfold Leaderboard.addEntryCore
    dsimp only
    rw [← updateFirst_map_strip]
    cases Leaderboard.updateFirst
        (Leaderboard.updateStats p
          (Leaderboard.histFind (Leaderboard.histPush lb.contributor_history
            p.contributor_id p) p.contributor_id) langs)
        p.contributor_id lb.entries with
    | none => simp [stripRank_freshStats]
    | some es => simp
  · rw [(update_ranks_strip flog _ .Combined).2]
    rfl


/-! ## Claim C3: aggregation for an existing contributor -/

theorem updateStats_spec (p : ProvenanceLog) (hist : List ProvenanceLog) (langs : List Bytes)
    (e : ContributorStats) (u v : ℚ) (hu : e.uniqueness_score = F.fin u)
    (hv : p.uniqueness_score = F.fin v) (hh : hist ≠ []) :
    Leaderboard.updateStats p hist langs e =
      { e with
        total_submissions := e.total_submissions + 1,
        trace_depth := max e.trace_depth p.trace_depth,
        provenance_hash := p.trace_hash,
        backend_used := p.backend_used,
        last_updated := p.timestamp,
        uniqueness_score := F.fin (max u v),
        avg_trace_depth := F.fin
          (((hist.map (fun q => (q.trace_depth : ℚ))).sum) / (hist.length : ℚ)),
        languages_used := langs.foldl
          (fun acc l => if l ∈ acc then acc else acc ++ [l]) e.languages_used } := by
  have hlen : ((hist.length : Nat) : ℚ) ≠ 0 := by
    have : 0 < hist.length := List.length_pos.mpr hh
    exact_mod_cast this.ne'
  unfold Leaderboard.updateStats
  rw [hu, hv, F.fmax_fin, F.div_fin _ _ hlen]

/-- The per-step invariant for a single contributor `c`: the history the
board holds for `c` is exactly the list of already-processed submissions,
and (once non-empty) the board holds exactly one entry for `c`, whose
submission count and average trace depth aggregate those submissions. -/
theorem addAll_single_contributor_inv (flog : ℚ → ℚ) (c : Bytes) :
    ∀ (subs : List (ProvenanceLog × List Bytes)) (lb : Leaderboard)
      (processed : List ProvenanceLog),
      (∀ s ∈ subs, (s.1 : ProvenanceLog).contributor_id = c) →
      Leaderboard.histFind lb.contributor_history c = processed →
      ((processed = [] ∧ ∀ x ∈ lb.entries.map stripRank, x.contributor_id ≠ c) ∨
       (processed ≠ [] ∧ ∃ pre e post,
          lb.entries.map stripRank = pre ++ e :: post ∧
          (∀ x ∈ pre, x.contributor_id ≠ c) ∧
          e.contributor_id = c ∧
          e.total_submissions = processed.length ∧
          e.avg_trace_depth = F.fin
            (((processed.map (fun q => (q.trace_depth : ℚ))).sum) /
             (processed.length : ℚ)))) →
      Leaderboard.histFind (addAll flog lb subs).contributor_history c =
          processed ++ subs.map Prod.fst ∧
      ((processed ++ subs.map Prod.fst = [] ∧
          ∀ x ∈ (addAll flog lb subs).entries.map stripRank, x.contributor_id ≠ c) ∨
       (processed ++ subs.map Prod.fst ≠ [] ∧ ∃ pre e post,
          (addAll flog lb subs).entries.map stripRank = pre ++ e :: post ∧
          (∀ x ∈ pre, x.contributor_id ≠ c) ∧
          e.contributor_id = c ∧
          e.total_submissions = (processed ++ subs.map Prod.fst).length ∧
          e.avg_trace_depth = F.fin
            ((((processed ++ subs.map Prod.fst).map (fun q => (q.trace_depth : ℚ))).sum) /
             ((processed ++ subs.map Prod.fst).length : ℚ)))) := by
  intro subs
  induction subs with
  | nil =>
      intro lb processed _ hh hinv
      rw [List.map_nil, List.append_nil]
      exact ⟨hh, hinv⟩
  | cons s rest ih =>
      intro lb processed hall hh hinv
      have hcid : (s.1 : ProvenanceLog).contributor_id = c := hall s (by simp)
      have hstep : addAll flog lb (s :: rest) =
          addAll flog (Leaderboard.add_entry flog lb s.1 s.2) rest := rfl
      rcases add_entry_strip flog lb s.1 s.2 with ⟨hstrip, hhist⟩
      have hh' : Leaderboard.histFind
          (Leaderboard.add_entry flog lb s.1 s.2).contributor_history c =
          processed ++ [s.1] := by
        rw [hhist, hcid] at *
        rw [histFind_histPush_self, hh]
      have hinv' : (processed ++ [s.1] = [] ∧
            ∀ x ∈ (Leaderboard.add_entry flog lb s.1 s.2).entries.map stripRank,
              x.contributor_id ≠ c) ∨
          (processed ++ [s.1] ≠ [] ∧ ∃ pre e post,
            (Leaderboard.add_entry flog lb s.1 s.2).entries.map stripRank =
              pre ++ e :: post ∧
            (∀ x ∈ pre, x.contributor_id ≠ c) ∧
            e.contributor_id = c ∧
            e.total_submissions = (processed ++ [s.1]).length ∧
            e.avg_trace_depth = F.fin
              ((((processed ++ [s.1]).map (fun q => (q.trace_depth : ℚ))).sum) /
               ((processed ++ [s.1]).length : ℚ))) := by
        right
        refine ⟨by simp, ?_⟩
        have hused : Leaderboard.histFind
            (Leaderboard.histPush lb.contributor_history s.1.contributor_id s.1)
              s.1.contributor_id = processed ++ [s.1] := by
          rw [histFind_histPush_self]
          rw [hcid, hh]
        rcases hinv with ⟨hemp, hnone⟩ | ⟨hne, pre, e, post, hdec, hpre, hid, hsubs, havg⟩
        · -- no entry yet: a fresh one is appended
          have hupd : Leaderboard.updateFirst
              (Leaderboard.updateStats s.1
                (Leaderboard.histFind (Leaderboard.histPush lb.contributor_history
                  s.1.contributor_id s.1) s.1.contributor_id) s.2)
              s.1.contributor_id (lb.entries.map stripRank) = none :=
            updateFirst_eq_none _ _ _ (fun x hx => by rw [hcid]; exact hnone x hx)
          refine ⟨lb.entries.map stripRank, Leaderboard.freshStats s.1 s.2, [], ?_, hnone, ?_, ?_, ?_⟩
          · rw [hstrip, hupd]
          · exact hcid
          · simp [Leaderboard.freshStats, hemp]
          · simp [Leaderboard.freshStats, hemp]
        · -- existing entry: update in place
          have hpreid : ∀ x ∈ pre, x.contributor_id ≠ s.1.contributor_id := by
            rw [hcid]; exact hpre
          have hupd : Leaderboard.updateFirst
              (Leaderboard.updateStats s.1
                (Leaderboard.histFind (Leaderboard.histPush lb.contributor_history
                  s.1.contributor_id s.1) s.1.contributor_id) s.2)
              s.1.contributor_id (lb.entries.map stripRank) =
              some (pre ++ Leaderboard.updateStats s.1
                (Leaderboard.histFind (Leaderboard.histPush lb.contributor_history
                  s.1.contributor_id s.1) s.1.contributor_id) s.2 e :: post) := by
            rw [hdec]
            exact updateFirst_found _ _ e post (by rw [hid, hcid]) pre hpreid
          have hlen1 : (((processed ++ [s.1]).length : Nat) : ℚ) ≠ 0 := by
            have : 0 < (processed ++ [s.1]).length := by simp
            exact_mod_cast this.ne'
          refine ⟨pre, Leaderboard.updateStats s.1
              (Leaderboard.histFind (Leaderboard.histPush lb.contributor_history
                s.1.contributor_id s.1) s.1.contributor_id) s.2 e, post, ?_, hpre, ?_, ?_, ?_⟩
          · rw [hstrip, hupd]
          · simpa [Leaderboard.updateStats] using hid
          · simp [Leaderboard.updateStats, hsubs]
          · simp only [Leaderboard.updateStats]
            rw [hused, F.div_fin _ _ hlen1]
      have := ih (Leaderboard.add_entry flog lb s.1 s.2) (processed ++ [s.1])
        (fun x hx => hall x (by simp [hx])) hh' hinv'
      rw [hstep]
      rcases this with ⟨h1, h2⟩
      constructor
      · rw [h1]
        simp
      · simpa using h2


/-- A concrete provenance log, existing leaderboard entry and leaderboard
(used for claim C3's witness). -/
def pLogW : ProvenanceLog :=
  { trace_hash := ascii "h", agent_sequence := [], contributor_id := ascii "c1",
    backend_used := ascii "b", timestamp := 4, trace_depth := 3,
    uniqueness_score := F.fin (1/2), transitions := [] }

/-- Concrete leaderboard entry for contributor c1 (claim C3's witness). -/
def entW : ContributorStats :=
  { contributor_id := ascii "c1", trace_depth := 2, provenance_hash := ascii "g",
    backend_used := ascii "a", last_updated := 1, uniqueness_score := F.fin (1/4),
    total_submissions := 1, avg_trace_depth := F.fin 2,
    languages_used := [ascii "en"], rank := 1 }

/-- Concrete leaderboard holding `entW` (claim C3's witness). -/
def lbW : Leaderboard :=
  { entries := [entW], contributor_history := [(ascii "c1", [pLogW])] }

/-- C3: when `add_entry` is called for a contributor that already has an
entry, the entry is updated in place (ranks aside): submissions increment,
max depth, last-write-wins hash/backend/timestamp, max uniqueness, the
average depth is recomputed as the exact mean over the full stored
history, and unseen language tags are appended in first-seen order; and
after N submissions for one contributor, its entry has `total_submissions
= N` and `avg_trace_depth` equal to the exact mean of the N depths. -/
theorem add_entry_contributor_aggregation :
    (∀ (flog : ℚ → ℚ) (lb : Leaderboard) (p : ProvenanceLog) (langs : List Bytes)
       (pre post : List ContributorStats) (e : ContributorStats) (u v : ℚ),
       lb.entries = pre ++ e :: post →
       (∀ x ∈ pre, x.contributor_id ≠ p.contributor_id) →
       e.contributor_id = p.contributor_id →
       e.uniqueness_score = F.fin u →
       p.uniqueness_score = F.fin v →
       (Leaderboard.add_entry flog lb p langs).entries.map stripRank =
         (pre ++ { e with
             total_submissions := e.total_submissions + 1,
             trace_depth := max e.trace_depth p.trace_depth,
             provenance_hash := p.trace_hash,
             backend_used := p.backend_used,
             last_updated := p.timestamp,
             uniqueness_score := F.fin (max u v),
             avg_trace_depth := F.fin
               ((((Leaderboard.histFind lb.contributor_history p.contributor_id ++ [p]).map
                   (fun q => (q.trace_depth : ℚ))).sum) /
                (((Leaderboard.histFind lb.contributor_history p.contributor_id
                    ++ [p]).length : ℚ))),
             languages_used := langs.foldl
               (fun acc l => if l ∈ acc then acc else acc ++ [l])
               e.languages_used } :: post).map stripRank ∧
       Leaderboard.histFind
           (Leaderboard.add_entry flog lb p langs).contributor_history p.contributor_id =
         Leaderboard.histFind lb.contributor_history p.contributor_id ++ [p]) ∧
    (∀ (flog : ℚ → ℚ) (lb0 : Leaderboard) (c : Bytes)
       (subs : List (ProvenanceLog × List Bytes)),
       (∀ x ∈ lb0.entries, x.contributor_id ≠ c) →
       Leaderboard.histFind lb0.contributor_history c = [] →
       (∀ s ∈ subs, (s.1 : ProvenanceLog).contributor_id = c) →
       subs ≠ [] →
       ∃ x ∈ (addAll flog lb0 subs).entries, x.contributor_id = c ∧
         x.total_submissions = subs.length ∧
         x.avg_trace_depth = F.fin
           (((subs.map (fun s => ((s.1 : ProvenanceLog).trace_depth : ℚ))).sum) /
            (subs.length : ℚ))) := by
  constructor
  · intro flog lb p langs pre post e u v hsplit hpre he hu hv
    rcases add_entry_strip flog lb p langs with ⟨hstrip, hhist⟩
    have hused : Leaderboard.histFind
        (Leaderboard.histPush lb.contributor_history p.contributor_id p) p.contributor_id =
        Leaderboard.histFind lb.contributor_history p.contributor_id ++ [p] :=
      histFind_histPush_self _ _ _
    constructor
    · rw [hstrip, hused, hsplit, List.map_append, List.map_cons]
      rw [updateFirst_found _ p.contributor_id (stripRank e) (post.map stripRank) he
            (pre.map stripRank)
            (by
              intro x hx
              rcases List.mem_map.mp hx with ⟨y, hy, rfl⟩
              exact hpre y hy)]
      dsimp only
      rw [updateStats_spec p _ langs (stripRank e) u v hu hv (by simp)]
      simp only [List.map_append, List.map_cons]
      rfl
    · rw [hhist, histFind_histPush_self]
  · intro flog lb0 c subs h0e h0h hall hne
    have hstart : ([] : List ProvenanceLog) = [] ∧
        ∀ x ∈ lb0.entries.map stripRank, x.contributor_id ≠ c := by
      refine ⟨rfl, ?_⟩
      intro x hx
      rcases List.mem_map.mp hx with ⟨y, hy, rfl⟩
      exact h0e y hy
    rcases addAll_single_contributor_inv flog c subs lb0 [] hall h0h (Or.inl hstart) with
      ⟨_, hres⟩
    rcases hres with ⟨habs, _⟩ | ⟨_, pre, e, post, hdec, _, hid, hsubs, havg⟩
    · have hmn : List.map Prod.fst subs = [] := by simpa using habs
      exact absurd (List.map_eq_nil_iff.mp hmn) hne
    · have hmem : e ∈ (addAll flog lb0 subs).entries.map stripRank := by
        rw [hdec]
        simp
      rcases List.mem_map.mp hmem with ⟨x, hx, hxe⟩
      refine ⟨x, hx, ?_, ?_, ?_⟩
      · calc x.contributor_id = (stripRank x).contributor_id := rfl
          _ = e.contributor_id := by rw [hxe]
          _ = c := hid
      · calc x.total_submissions = (stripRank x).total_submissions := rfl
          _ = e.total_submissions := by rw [hxe]
          _ = subs.length := by simpa using hsubs
      · calc x.avg_trace_depth = (stripRank x).avg_trace_depth := rfl
          _ = e.avg_trace_depth := by rw [hxe]
          _ = _ := by
              rw [havg]
              simp [List.map_map]
              rfl

/-- Witness for C3: updating the one-entry board `lbW` with a new
submission from the same contributor, and a fresh one-submission run. -/
theorem add_entry_contributor_aggregation_witness :
    (Leaderboard.histFind
        (Leaderboard.add_entry (fun _ => 0) lbW pLogW [ascii "id"]).contributor_history
        (ascii "c1") =
      Leaderboard.histFind lbW.contributor_history (ascii "c1") ++ [pLogW]) ∧
    (∃ x ∈ (addAll (fun _ => 0) Leaderboard.new [(pLogW, [ascii "en"])]).entries,
       x.contributor_id = ascii "c1" ∧
       x.total_submissions = [(pLogW, [ascii "en"])].length ∧
       x.avg_trace_depth = F.fin
         ((([(pLogW, [ascii "en"])].map
             (fun s => ((s.1 : ProvenanceLog).trace_depth : ℚ))).sum) /
          (([(pLogW, [ascii "en"])].length : ℚ)))) :=
  ⟨(add_entry_contributor_aggregation.1 (fun _ => 0) lbW pLogW [ascii "id"] [] [] entW
      (1/4) (1/2) rfl (by simp) rfl rfl rfl).2,
   add_entry_contributor_aggregation.2 (fun _ => 0) Leaderboard.new (ascii "c1")
      [(pLogW, [ascii "en"])] (by simp [Leaderboard.new]) rfl
      (by
        intro s hs
        simp only [List.mem_singleton] at hs
        subst hs
        rfl)
      (by simp)⟩


/-! ## Claim C10: finiteness of stored scores, so ranking cannot panic -/

theorem uniq_score_fin (m : MetaAgent) (h : m.trace ≠ []) :
    ∃ q, m.compute_uniqueness_score = F.fin q := by
  have hn : ((m.trace.length : Nat) : ℚ) ≠ 0 := by
    have : 0 < m.trace.length := List.length_pos.mpr h
    exact_mod_cast this.ne'
  unfold MetaAgent.compute_uniqueness_score
  dsimp only
  rw [F.div_fin _ _ hn, F.fmin_fin, F.add_fin, F.add_fin,
    F.div_fin _ _ (by norm_num : (3:ℚ) ≠ 0)]
  exact ⟨_, rfl⟩

theorem combined_score_eval (flog : ℚ → ℚ) (s : ContributorStats) (u av : ℚ)
    (hu : s.uniqueness_score = F.fin u) (ha : s.avg_trace_depth = F.fin av)
    (hs : 1 ≤ s.total_submissions) :
    Leaderboard.compute_combined_score flog s =
      F.fin (3/10 * ((s.trace_depth : ℚ) / 100) + 2/5 * u +
             3/20 * (flog (s.total_submissions : ℚ) / 5) + 3/20 * (av / 50)) := by
  have hpos : (0:ℚ) < (s.total_submissions : ℚ) := by exact_mod_cast hs
  unfold Leaderboard.compute_combined_score
  dsimp only
  rw [hu, ha]
  rw [F.div_fin _ _ (by norm_num : (100:ℚ) ≠ 0)]
  have hln : F.lnF flog (.fin (s.total_submissions : ℚ)) =
      .fin (flog (s.total_submissions : ℚ)) := by
    simp only [F.lnF]
    rw [if_pos hpos]
  rw [hln, F.div_fin _ _ (by norm_num : (5:ℚ) ≠ 0),
    F.div_fin _ _ (by norm_num : (50:ℚ) ≠ 0),
    F.mul_fin, F.mul_fin, F.mul_fin, F.mul_fin, F.add_fin, F.add_fin, F.add_fin]

theorem combined_score_fin (flog : ℚ → ℚ) (s : ContributorStats)
    (hu : ∃ u, s.uniqueness_score = F.fin u) (ha : ∃ av, s.avg_trace_depth = F.fin av)
    (hs : 1 ≤ s.total_submissions) :
    ∃ q, Leaderboard.compute_combined_score flog s = F.fin q := by
  rcases hu with ⟨u, hu⟩
  rcases ha with ⟨av, ha⟩
  exact ⟨_, combined_score_eval flog s u av hu ha hs⟩

theorem updateFirst_mem (f : ContributorStats → ContributorStats) (cid : Bytes) :
    ∀ (l l' : List ContributorStats), Leaderboard.updateFirst f cid l = some l' →
      ∀ y ∈ l', y ∈ l ∨ ∃ e ∈ l, y = f e := by
  intro l
  induction l with
  | nil => intro l' h; cases h
  | cons e es ih =>
      intro l' h y hy
      unfold Leaderboard.updateFirst at h
      by_cases hc : e.contributor_id = cid
      · rw [if_pos hc] at h
        cases h
        rcases List.mem_cons.mp hy with rfl | hmem
        · exact Or.inr ⟨e, by simp, rfl⟩
        · exact Or.inl (by simp [hmem])
      · rw [if_neg hc] at h
        cases hrec : Leaderboard.updateFirst f cid es with
        | none => rw [hrec] at h; cases h
        | some es'' =>
            rw [hrec] at h
            have h' : some (e :: es'') = some l' := h
            have hl : e :: es'' = l' := by injection h'
            subst hl
            rcases List.mem_cons.mp hy with rfl | hmem
            · exact Or.inl (by simp)
            · rcases ih es'' hrec y hmem with hin | ⟨e0, he0, rfl⟩
              · exact Or.inl (by simp [hin])
              · exact Or.inr ⟨e0, by simp [he0], rfl⟩

/-- The per-entry finiteness invariant of claim C10, as a predicate on a
single (rank-stripped or not) entry. -/
def FinStats (x : ContributorStats) : Prop :=
  (∃ q, x.uniqueness_score = F.fin q) ∧ (∃ q, x.avg_trace_depth = F.fin q) ∧
  1 ≤ x.total_submissions

theorem finStats_strip (x : ContributorStats) : FinStats (stripRank x) ↔ FinStats x :=
  Iff.rfl

theorem add_entry_preserves_fin (flog : ℚ → ℚ) (lb : Leaderboard) (p : ProvenanceLog)
    (langs : List Bytes) (hp : ∃ q, p.uniqueness_score = F.fin q)
    (hinv : ∀ x ∈ lb.entries, FinStats x) :
    ∀ x ∈ (Leaderboard.add_entry flog lb p langs).entries, FinStats x := by
  intro x hx
  rw [← finStats_strip]
  have hmem : stripRank x ∈ (Leaderboard.add_entry flog lb p langs).entries.map stripRank :=
    List.mem_map_of_mem _ hx
  rw [(add_entry_strip flog lb p langs).1] at hmem
  have hstripped : ∀ y ∈ lb.entries.map stripRank, FinStats y := by
    intro y hy
    rcases List.mem_map.mp hy with ⟨z, hz, rfl⟩
    rw [finStats_strip]
    exact hinv z hz
  rcases hcase : Leaderboard.updateFirst
      (Leaderboard.updateStats p
        (Leaderboard.histFind (Leaderboard.histPush lb.contributor_history
          p.contributor_id p) p.contributor_id) langs)
      p.contributor_id (lb.entries.map stripRank) with _ | es
  · rw [hcase] at hmem
    dsimp only at hmem
    rcases List.mem_append.mp hmem with hin | hfresh
    · exact hstripped _ hin
    · simp only [List.mem_singleton] at hfresh
      rw [hfresh]
      refine ⟨hp, ⟨_, rfl⟩, le_refl 1⟩
  · rw [hcase] at hmem
    dsimp only at hmem
    rcases updateFirst_mem _ _ _ _ hcase _ hmem with hin | ⟨e0, he0, heq⟩
    · exact hstripped _ hin
    · rw [heq]
      have hfe0 := hstripped e0 he0
      have hlen : (((Leaderboard.histFind (Leaderboard.histPush lb.contributor_history
          p.contributor_id p) p.contributor_id).length : Nat) : ℚ) ≠ 0 := by
        rw [histFind_histPush_self]
        have : 0 < (Leaderboard.histFind lb.contributor_history p.contributor_id
            ++ [p]).length := by simp
        exact_mod_cast this.ne'
      refine ⟨?_, ?_, ?_⟩
      · rcases hfe0.1 with ⟨u, hu⟩
        rcases hp with ⟨v, hv⟩
        exact ⟨max u v, by simp [Leaderboard.updateStats, hu, hv, F.fmax_fin]⟩
      · refine ⟨((Leaderboard.histFind (Leaderboard.histPush lb.contributor_history
            p.contributor_id p) p.contributor_id).map (fun q => (q.trace_depth : ℚ))).sum /
            (((Leaderboard.histFind (Leaderboard.histPush lb.contributor_history
              p.contributor_id p) p.contributor_id).length : Nat) : ℚ), ?_⟩
        simp only [Leaderboard.updateStats]
        rw [F.div_fin _ _ hlen]
      · simp [Leaderboard.updateStats]

theorem runBoard_fin (flog : ℚ → ℚ) :
    ∀ (subs : List (MetaAgent × List Bytes × Int)) (lb : Leaderboard),
      (∀ s ∈ subs, (s.1 : MetaAgent).trace ≠ []) →
      (∀ x ∈ lb.entries, FinStats x) →
      ∀ x ∈ (subs.foldl
          (fun l s => l.add_entry flog (s.1.emit_provenance s.2.2) s.2.1) lb).entries,
        FinStats x := by
  intro subs
  induction subs with
  | nil => intro lb _ hinv; exact hinv
  | cons s rest ih =>
      intro lb hall hinv
      have hstep := add_entry_preserves_fin flog lb (s.1.emit_provenance s.2.2) s.2.1
        (by
          have := uniq_score_fin s.1 (hall s (by simp))
          simpa [MetaAgent.emit_provenance] using this)
        hinv
      exact ih _ (fun y hy => hall y (by simp [hy])) hstep

/-- C10: on a leaderboard built exclusively by `add_entry` calls fed with
`emit_provenance` outputs of sessions with non-empty traces, every stored
uniqueness score and average trace depth is a finite (non-NaN) value,
every submission count is at least 1, and consequently every
`partial_cmp` comparison performed by `rank_by_depth`,
`rank_by_uniqueness`, `rank_by_avg_depth` and `rank_combined` on a pair of
entries returns `some` — the `.unwrap()` panic branch is unreachable.
(Event confidences are rationals in this model, hence never NaN; they do
not feed any ranked quantity in the source either.) -/
theorem reachable_leaderboard_no_panic (flog : ℚ → ℚ)
    (subs : List (MetaAgent × List Bytes × Int))
    (hne : ∀ s ∈ subs, (s.1 : MetaAgent).trace ≠ []) :
    (∀ x ∈ (runBoard flog subs).entries, FinStats x) ∧
    (∀ x1 ∈ (runBoard flog subs).entries, ∀ x2 ∈ (runBoard flog subs).entries,
       (F.pcmp x1.uniqueness_score x2.uniqueness_score).isSome ∧
       (F.pcmp x1.avg_trace_depth x2.avg_trace_depth).isSome ∧
       (F.pcmp (Leaderboard.compute_combined_score flog x1)
               (Leaderboard.compute_combined_score flog x2)).isSome) := by
  have hfin : ∀ x ∈ (runBoard flog subs).entries, FinStats x :=
    runBoard_fin flog subs Leaderboard.new hne (by intro x hx; cases hx)
  refine ⟨hfin, ?_⟩
  intro x1 h1 x2 h2
  rcases hfin x1 h1 with ⟨⟨u1, hu1⟩, ⟨a1, ha1⟩, hs1⟩
  rcases hfin x2 h2 with ⟨⟨u2, hu2⟩, ⟨a2, ha2⟩, hs2⟩
  rcases combined_score_fin flog x1 ⟨u1, hu1⟩ ⟨a1, ha1⟩ hs1 with ⟨c1, hc1⟩
  rcases combined_score_fin flog x2 ⟨u2, hu2⟩ ⟨a2, ha2⟩ hs2 with ⟨c2, hc2⟩
  refine ⟨?_, ?_, ?_⟩
  · rw [hu1, hu2]; exact F.pcmp_fin_isSome u1 u2
  · rw [ha1, ha2]; exact F.pcmp_fin_isSome a1 a2
  · rw [hc1, hc2]; exact F.pcmp_fin_isSome c1 c2

/-- Witness for C10: a board built from one non-empty session. -/
theorem reachable_leaderboard_no_panic_witness :
    (∀ s ∈ [(mProvA, ([ascii "en"], (0:Int)))], (s.1 : MetaAgent).trace ≠ []) ∧
    (∀ x ∈ (runBoard (fun _ => 0) [(mProvA, ([ascii "en"], (0:Int)))]).entries,
       FinStats x) :=
  ⟨by
      intro s hs
      simp only [List.mem_singleton] at hs
      subst hs
      decide,
   (reachable_leaderboard_no_panic (fun _ => 0) [(mProvA, ([ascii "en"], (0:Int)))]
      (by
        intro s hs
        simp only [List.mem_singleton] at hs
        subst hs
        decide)).1⟩


/-! ## Claim C6: ranks are recomputed under the Combined criterion -/

theorem F.ble_trans (x y z : F) (h1 : F.ble x y = true) (h2 : F.ble y z = true) :
    F.ble x z = true := by
  cases x <;> cases y <;> cases z <;>
    (simp_all [F.ble, F.cmp, compare_gt_iff_gt, not_lt]
     try exact le_trans h1 h2)

theorem F.ble_total (x y : F) : (F.ble x y || F.ble y x) = true := by
  cases x <;> cases y <;>
    (simp_all [F.ble, F.cmp, compare_gt_iff_gt, not_lt]
     try exact le_total _ _)

theorem rank_combined_perm (flog : ℚ → ℚ) (lb : Leaderboard) :
    (Leaderboard.rank_combined flog lb).Perm lb.entries :=
  List.mergeSort_perm lb.entries _

theorem rank_combined_sorted (flog : ℚ → ℚ) (lb : Leaderboard) :
    List.Pairwise (fun a b =>
        F.ble (Leaderboard.compute_combined_score flog b)
              (Leaderboard.compute_combined_score flog a) = true)
      (Leaderboard.rank_combined flog lb) := by
  unfold Leaderboard.rank_combined
  exact @List.sorted_mergeSort ContributorStats
    (fun a b => F.ble (Leaderboard.compute_combined_score flog b)
      (Leaderboard.compute_combined_score flog a))
    (fun a b c h1 h2 => F.ble_trans _ _ _ h2 h1)
    (fun a b => F.ble_total _ _)
    lb.entries

theorem idxOfB_cons (cid x : Bytes) (xs : List Bytes) :
    idxOfB cid (x :: xs) = if x = cid then 0 else 1 + idxOfB cid xs := rfl

theorem map_rankUpd_id (es : List ContributorStats) (cid : Bytes) (r : Nat)
    (h : ∀ x ∈ es, x.contributor_id ≠ cid) :
    es.map (fun e => if e.contributor_id = cid then { e with rank := r } else e) = es :=
  (List.map_congr_left (fun x hx => if_neg (h x hx))).trans (List.map_id es)

theorem setRankById_eq_map (cid : Bytes) (r : Nat) :
    ∀ l : List ContributorStats, (l.map (fun e => e.contributor_id)).Nodup →
      Leaderboard.setRankById cid r l =
        l.map (fun e => if e.contributor_id = cid then { e with rank := r } else e) := by
  intro l
  induction l with
  | nil => intro _; rfl
  | cons e es ih =>
      intro hnd
      rw [List.map_cons, List.nodup_cons] at hnd
      unfold Leaderboard.setRankById
      by_cases hc : e.contributor_id = cid
      · rw [if_pos hc, List.map_cons, if_pos hc]
        congr 1
        symm
        apply map_rankUpd_id
        intro x hx hxc
        exact hnd.1 (by
          rw [hc, ← hxc]
          exact List.mem_map_of_mem _ hx)
      · rw [if_neg hc, List.map_cons, if_neg hc, ih hnd.2]

theorem assignRanks_eq_map :
    ∀ (rs : List ContributorStats) (i : Nat) (l : List ContributorStats),
      (l.map (fun e => e.contributor_id)).Nodup →
      ((rs.map (fun e => e.contributor_id)).Nodup) →
      Leaderboard.assignRanks i l rs =
        l.map (fun e =>
          if e.contributor_id ∈ rs.map (fun x => x.contributor_id)
          then { e with rank := i + 1 + idxOfB e.contributor_id (rs.map (fun x => x.contributor_id)) }
          else e) := by
  intro rs
  induction rs with
  | nil =>
      intro i l hl _
      unfold Leaderboard.assignRanks
      symm
      simp only [List.map_nil]
      exact (List.map_congr_left (fun x hx => by simp)).trans (List.map_id l)
  | cons r rs' ih =>
      intro i l hl hrs
      rw [List.map_cons, List.nodup_cons] at hrs
      unfold Leaderboard.assignRanks
      rw [setRankById_eq_map _ _ l hl]
      have hid : ∀ e : ContributorStats,
          ((if e.contributor_id = r.contributor_id then { e with rank := i + 1 } else e) :
            ContributorStats).contributor_id = e.contributor_id := by
        intro e
        by_cases h : e.contributor_id = r.contributor_id <;> simp [h]
      have hl' : ((l.map (fun e => if e.contributor_id = r.contributor_id
          then { e with rank := i + 1 } else e)).map (fun e => e.contributor_id)).Nodup := by
        rw [List.map_map]
        have hcomp : ((fun e : ContributorStats => e.contributor_id) ∘
            (fun e : ContributorStats => if e.contributor_id = r.contributor_id
              then { e with rank := i + 1 } else e)) =
            fun e : ContributorStats => e.contributor_id := funext hid
        rw [hcomp]
        exact hl
      rw [ih (i + 1) _ hl' hrs.2]
      rw [List.map_map]
      apply List.map_congr_left
      intro e _
      simp only [Function.comp_apply]
      by_cases h1 : e.contributor_id = r.contributor_id
      · rw [if_pos h1]
        have hnotin : ({ e with rank := i + 1 } : ContributorStats).contributor_id ∉
            rs'.map (fun x => x.contributor_id) := by
          show e.contributor_id ∉ _
          rw [h1]
          exact hrs.1
        rw [if_neg hnotin]
        have hmem : e.contributor_id ∈ (r :: rs').map (fun x => x.contributor_id) := by
          rw [List.map_cons, h1]
          exact List.mem_cons_self _ _
        rw [if_pos hmem]
        have hidx : i + 1 + idxOfB e.contributor_id
            ((r :: rs').map (fun x => x.contributor_id)) = i + 1 := by
          rw [List.map_cons, idxOfB_cons, if_pos h1.symm]
        rw [hidx]
      · rw [if_neg h1]
        by_cases h2 : e.contributor_id ∈ rs'.map (fun x => x.contributor_id)
        · rw [if_pos h2]
          have hmem : e.contributor_id ∈ (r :: rs').map (fun x => x.contributor_id) := by
            rw [List.map_cons]
            exact List.mem_cons_of_mem _ h2
          rw [if_pos hmem]
          have hidx : i + 1 + idxOfB e.contributor_id
              ((r :: rs').map (fun x => x.contributor_id)) =
              i + 1 + 1 + idxOfB e.contributor_id (rs'.map (fun x => x.contributor_id)) := by
            rw [List.map_cons, idxOfB_cons, if_neg (fun h => h1 h.symm)]
            omega
          rw [hidx]
        · rw [if_neg h2]
          have hnm : e.contributor_id ∉ (r :: rs').map (fun x => x.contributor_id) := by
            rw [List.map_cons]
            intro hmem
            rcases List.mem_cons.mp hmem with h | h
            · exact h1 h
            · exact h2 h
          rw [if_neg hnm]

theorem update_ranks_combined_eq (flog : ℚ → ℚ) (lb : Leaderboard)
    (h : (lb.entries.map (fun e => e.contributor_id)).Nodup) :
    (Leaderboard.update_ranks flog lb .Combined).entries =
      lb.entries.map (fun e =>
        { e with rank := 1 + idxOfB e.contributor_id ((Leaderboard.rank_combined flog lb).map (fun x => x.contributor_id)) }) := by
  have hperm := rank_combined_perm flog lb
  have hrs : ((Leaderboard.rank_combined flog lb).map
      (fun e => e.contributor_id)).Nodup := ((hperm.map _).nodup_iff).mpr h
  unfold Leaderboard.update_ranks
  dsimp only
  rw [assignRanks_eq_map _ 0 _ h hrs]
  apply List.map_congr_left
  intro e he
  have hmem : e.contributor_id ∈ (Leaderboard.rank_combined flog lb).map
      (fun x => x.contributor_id) :=
    List.mem_map_of_mem _ (hperm.mem_iff.mpr he)
  rw [if_pos hmem]


theorem updateFirst_none_mem (f : ContributorStats → ContributorStats) (cid : Bytes) :
    ∀ l : List ContributorStats, Leaderboard.updateFirst f cid l = none →
      ∀ e ∈ l, e.contributor_id ≠ cid := by
  intro l
  induction l with
  | nil => intro _ e he; cases he
  | cons x xs ih =>
      intro h e he
      unfold Leaderboard.updateFirst at h
      by_cases hc : x.contributor_id = cid
      · rw [if_pos hc] at h; cases h
      · rw [if_neg hc] at h
        rcases List.mem_cons.mp he with rfl | hmem
        · exact hc
        · cases hrec : Leaderboard.updateFirst f cid xs with
          | none => exact ih hrec e hmem
          | some es => rw [hrec] at h; cases h

theorem updateFirst_ids (f : ContributorStats → ContributorStats) (cid : Bytes)
    (hf : ∀ x, (f x).contributor_id = x.contributor_id) :
    ∀ (l l' : List ContributorStats), Leaderboard.updateFirst f cid l = some l' →
      l'.map (fun e => e.contributor_id) = l.map (fun e => e.contributor_id) := by
  intro l
  induction l with
  | nil => intro l' h; cases h
  | cons x xs ih =>
      intro l' h
      unfold Leaderboard.updateFirst at h
      by_cases hc : x.contributor_id = cid
      · rw [if_pos hc] at h
        cases h
        simp [hf]
      · rw [if_neg hc] at h
        cases hrec : Leaderboard.updateFirst f cid xs with
        | none => rw [hrec] at h; cases h
        | some es =>
            rw [hrec] at h
            have h' : some (x :: es) = some l' := h
            have hl : x :: es = l' := by injection h'
            subst hl
            simp [ih es hrec]

theorem addEntryCore_nodup (lb : Leaderboard) (p : ProvenanceLog) (langs : List Bytes)
    (h : (lb.entries.map (fun e => e.contributor_id)).Nodup) :
    ((Leaderboard.addEntryCore lb p langs).entries.map
      (fun e => e.contributor_id)).Nodup := by
  unfold Leaderboard.addEntryCore
  dsimp only
  cases hcase : Leaderboard.updateFirst
      (Leaderboard.updateStats p
        (Leaderboard.histFind (Leaderboard.histPush lb.contributor_history
          p.contributor_id p) p.contributor_id) langs)
      p.contributor_id lb.entries with
  | some es =>
      rw [updateFirst_ids (Leaderboard.updateStats p
          (Leaderboard.histFind (Leaderboard.histPush lb.contributor_history
            p.contributor_id p) p.contributor_id) langs) p.contributor_id
          (fun x => rfl) lb.entries es hcase]
      exact h
  | none =>
      rw [List.map_append]
      rw [List.nodup_append]
      refine ⟨h, by simp, ?_⟩
      intro x hx hx'
      simp only [Leaderboard.freshStats, List.map_cons, List.map_nil,
        List.mem_singleton] at hx'
      subst hx'
      rcases List.mem_map.mp hx with ⟨y, hy, hfst⟩
      exact updateFirst_none_mem _ _ _ hcase y hy hfst

theorem addEntryCore_fin (lb : Leaderboard) (p : ProvenanceLog) (langs : List Bytes)
    (hp : ∃ q, p.uniqueness_score = F.fin q)
    (hinv : ∀ x ∈ lb.entries, FinStats x) :
    ∀ e ∈ (Leaderboard.addEntryCore lb p langs).entries, FinStats e := by
  intro e he
  unfold Leaderboard.addEntryCore at he
  dsimp only at he
  rcases hcase : Leaderboard.updateFirst
      (Leaderboard.updateStats p
        (Leaderboard.histFind (Leaderboard.histPush lb.contributor_history
          p.contributor_id p) p.contributor_id) langs)
      p.contributor_id lb.entries with _ | es
  · rw [hcase] at he
    dsimp only at he
    rcases List.mem_append.mp he with hin | hfresh
    · exact hinv _ hin
    · simp only [List.mem_singleton] at hfresh
      rw [hfresh]
      exact ⟨hp, ⟨_, rfl⟩, le_refl 1⟩
  · rw [hcase] at he
    dsimp only at he
    rcases updateFirst_mem _ _ _ _ hcase _ he with hin | ⟨e0, he0, heq⟩
    · exact hinv _ hin
    · rw [heq]
      have hfe0 := hinv e0 he0
      have hlen : (((Leaderboard.histFind (Leaderboard.histPush lb.contributor_history
          p.contributor_id p) p.contributor_id).length : Nat) : ℚ) ≠ 0 := by
        rw [histFind_histPush_self]
        have : 0 < (Leaderboard.histFind lb.contributor_history p.contributor_id
            ++ [p]).length := by simp
        exact_mod_cast this.ne'
      refine ⟨?_, ?_, ?_⟩
      · rcases hfe0.1 with ⟨u, hu⟩
        rcases hp with ⟨v, hv⟩
        exact ⟨max u v, by simp [Leaderboard.updateStats, hu, hv, F.fmax_fin]⟩
      · refine ⟨((Leaderboard.histFind (Leaderboard.histPush lb.contributor_history
            p.contributor_id p) p.contributor_id).map (fun q => (q.trace_depth : ℚ))).sum /
            (((Leaderboard.histFind (Leaderboard.histPush lb.contributor_history
              p.contributor_id p) p.contributor_id).length : Nat) : ℚ), ?_⟩
        simp only [Leaderboard.updateStats]
        rw [F.div_fin _ _ hlen]
      · simp [Leaderboard.updateStats]

/-- C6: after every `add_entry` call the rank of every entry is
recomputed under the Combined criterion: the comparator sorts by combined
score descending (a stable merge sort), each entry's rank becomes one plus
the position of its contributor in that order (rank 1 = best), and the
combined score of an entry with finite stored scores is exactly
`0.3*(trace_depth/100) + 0.4*uniqueness_score +
0.15*(ln(total_submissions)/5) + 0.15*(avg_trace_depth/50)` (with `flog`
the finite values of `f64::ln`). -/
theorem add_entry_ranks_combined (flog : ℚ → ℚ) (lb : Leaderboard) (p : ProvenanceLog)
    (langs : List Bytes)
    (hnd : (lb.entries.map (fun e => e.contributor_id)).Nodup)
    (hfin : ∀ x ∈ lb.entries, FinStats x)
    (hp : ∃ q, p.uniqueness_score = F.fin q) :
    (Leaderboard.rank_combined flog (Leaderboard.addEntryCore lb p langs)).Perm
        (Leaderboard.addEntryCore lb p langs).entries ∧
    List.Pairwise (fun a b =>
        F.ble (Leaderboard.compute_combined_score flog b)
              (Leaderboard.compute_combined_score flog a) = true)
      (Leaderboard.rank_combined flog (Leaderboard.addEntryCore lb p langs)) ∧
    (Leaderboard.add_entry flog lb p langs).entries =
      (Leaderboard.addEntryCore lb p langs).entries.map (fun e =>
        { e with rank := 1 + idxOfB e.contributor_id ((Leaderboard.rank_combined flog (Leaderboard.addEntryCore lb p langs)).map (fun x => x.contributor_id)) }) ∧
    (∀ e ∈ (Leaderboard.addEntryCore lb p langs).entries, ∃ u av,
        e.uniqueness_score = F.fin u ∧ e.avg_trace_depth = F.fin av ∧
        Leaderboard.compute_combined_score flog e =
          F.fin (3/10 * ((e.trace_depth : ℚ) / 100) + 2/5 * u +
                 3/20 * (flog (e.total_submissions : ℚ) / 5) + 3/20 * (av / 50))) := by
  refine ⟨rank_combined_perm flog _, rank_combined_sorted flog _, ?_, ?_⟩
  · exact update_ranks_combined_eq flog _ (addEntryCore_nodup lb p langs hnd)
  · intro e he
    rcases addEntryCore_fin lb p langs hp hfin e he with ⟨⟨u, hu⟩, ⟨av, ha⟩, hs⟩
    exact ⟨u, av, hu, ha, combined_score_eval flog e u av hu ha hs⟩

/-- Witness for C6: the first submission on an empty leaderboard. -/
theorem add_entry_ranks_combined_witness :
    (Leaderboard.add_entry (fun _ => 0) Leaderboard.new pLogW [ascii "en"]).entries =
      (Leaderboard.addEntryCore Leaderboard.new pLogW [ascii "en"]).entries.map (fun e =>
        { e with rank := 1 + idxOfB e.contributor_id ((Leaderboard.rank_combined (fun _ => 0) (Leaderboard.addEntryCore Leaderboard.new pLogW [ascii "en"])).map (fun x => x.contributor_id)) }) :=
  (add_entry_ranks_combined (fun _ => 0) Leaderboard.new pLogW [ascii "en"]
    (by simp [Leaderboard.new])
    (by intro x hx; simp [Leaderboard.new] at hx)
    ⟨1/2, rfl⟩).2.2.1

end QLG
